import Mathlib

/-!
Verification development for the core execution operators of the
DataFusion-style query engine: the bounded Top-K operator, the grouped
hash aggregator, the group-column builders, the sort-preserving merge
and the cross-runtime stream bridge.

Each Rust structure is shallowly embedded as a Lean structure and each
operation as a total executable function.  Encoded sort keys (the
`arrow_row` byte rows compared by `memcmp`) are abstracted to an
arbitrary linearly ordered type `K`; the payload columns of a row are
abstracted to a type `V`.
-/

namespace Spec2Proof

/-! ## Top-K operator (`core/src/physical_plan/topk/mod.rs`) -/

/-- One of the top K rows held in the heap (`TopKRow`): the encoded sort
key `row`, the id of the source batch, and the row index within that
batch.  The owned byte vector of the source is abstracted to a value of
the ordered key type. -/
structure TopKRow (K : Type) where
  row : K
  batch_id : Nat
  index : Nat
deriving Repr, DecidableEq

/-- A registered record batch together with its id and its use count
(`RecordBatchEntry`).  A batch is the list of its rows, each row being
its encoded sort key paired with its payload. -/
structure RecordBatchEntry (K V : Type) where
  id : Nat
  batch : List (K × V)
  uses : Nat
deriving Repr, DecidableEq

/-- The batch store (`RecordBatchStore`): an id generator plus the
retained entries (the hash map is modelled as an association list; the
memory-size bookkeeping fields, which feed only the metrics and the
memory reservation, are not part of the model). -/
structure RecordBatchStore (K V : Type) where
  next_id : Nat
  batches : List (RecordBatchEntry K V)
deriving Repr, DecidableEq

def RecordBatchStore.new {K V : Type} : RecordBatchStore K V :=
  { next_id := 0, batches := [] }

/-- `RecordBatchStore::register`: assign the next id to `batch` and
return the entry with `uses = 0`; the entry is not yet stored. -/
def RecordBatchStore.register {K V : Type} (s : RecordBatchStore K V)
    (batch : List (K × V)) : RecordBatchStore K V × RecordBatchEntry K V :=
  ({ s with next_id := s.next_id + 1 }, { id := s.next_id, batch := batch, uses := 0 })

/-- `RecordBatchStore::insert`: store the entry only if it has uses
(a map insert replaces any entry with the same id). -/
def RecordBatchStore.insertEntry {K V : Type} (s : RecordBatchStore K V)
    (e : RecordBatchEntry K V) : RecordBatchStore K V :=
  if 0 < e.uses then
    { s with batches := s.batches.filter (fun b => decide (b.id ≠ e.id)) ++ [e] }
  else s

/-- `RecordBatchStore::get`. -/
def RecordBatchStore.get {K V : Type} (s : RecordBatchStore K V) (id : Nat) :
    Option (RecordBatchEntry K V) :=
  s.batches.find? (fun e => decide (e.id = id))

/-- `RecordBatchStore::unuse`: decrement the use count of `id`; when it
reaches zero the entry is removed from the store. -/
def RecordBatchStore.unuse {K V : Type} (s : RecordBatchStore K V) (id : Nat) :
    RecordBatchStore K V :=
  let decremented :=
    s.batches.map (fun e => if e.id = id then { e with uses := e.uses - 1 } else e)
  { s with batches := decremented.filter (fun e => decide (e.id ≠ id) || decide (0 < e.uses)) }

/-- The Top-K heap (`TopKHeap`): the bound `k`, the retained rows in
ascending encoded-key order (`inner`), and the batch store.  The
`owned_bytes` memory-accounting field is not part of the model. -/
structure TopKHeap (K V : Type) where
  k : Nat
  inner : List (TopKRow K)
  store : RecordBatchStore K V
deriving Repr, DecidableEq

def TopKHeap.empty {K V : Type} (k : Nat) : TopKHeap K V :=
  { k := k, inner := [], store := RecordBatchStore.new }

/-- `TopKHeap::new` together with its `assert!(k > 0)`: the panic on
`k = 0` is modelled as `none`. -/
def TopKHeap.new {K V : Type} (k : Nat) : Option (TopKHeap K V) :=
  if 0 < k then some (TopKHeap.empty k) else none

/-- `TopKHeap::k_largest`: the largest retained row, available only once
the heap holds `k` items. -/
def TopKHeap.k_largest {K V : Type} (h : TopKHeap K V) : Option (TopKRow K) :=
  if h.inner.length < h.k then none else h.inner.getLast?

variable {K V : Type} [LinearOrder K]

/-- The `partition_point`-based insertion of `TopKHeap::add`: on a list
sorted in ascending key order, the new row goes after every row whose
key is `≤` its key and before the rest. -/
def insertRowSorted (inner : List (TopKRow K)) (r : TopKRow K) : List (TopKRow K) :=
  inner.takeWhile (fun cur => decide (cur.row ≤ r.row)) ++
    r :: inner.dropWhile (fun cur => decide (cur.row ≤ r.row))

/-- `TopKHeap::add`: add a row for `(row, index)` of the batch of
`entry`.  When the heap already holds `k` rows the largest (last) row
is popped first and its batch use released. -/
def TopKHeap.add (h : TopKHeap K V) (entry : RecordBatchEntry K V)
    (row : K) (index : Nat) : TopKHeap K V × RecordBatchEntry K V :=
  let entry' : RecordBatchEntry K V := { entry with uses := entry.uses + 1 }
  if h.inner.length = h.k then
    match h.inner.getLast? with
    | some prev_min =>
        let inner0 := h.inner.dropLast
        let (entry2, store2) :=
          if prev_min.batch_id = entry'.id then
            ({ entry' with uses := entry'.uses - 1 }, h.store)
          else (entry', h.store.unuse prev_min.batch_id)
        ({ h with inner := insertRowSorted inner0 ⟨row, entry'.id, index⟩,
                  store := store2 }, entry2)
    | none =>
        -- `inner.pop().unwrap()` of the source panics here; with `k > 0`
        -- this branch is unreachable.
        ({ h with inner := insertRowSorted h.inner ⟨row, entry'.id, index⟩ }, entry')
  else
    ({ h with inner := insertRowSorted h.inner ⟨row, entry'.id, index⟩ }, entry')

/-- The Top-K operator (`TopK`): output batch size, the heap, and the
`row_replacements` metric counter. -/
structure TopK (K V : Type) where
  batch_size : Nat
  heap : TopKHeap K V
  row_replacements : Nat
deriving Repr, DecidableEq

/-- The state of `TopK::try_new` before any batch is inserted (for a
bound `k > 0`; the assertion itself is `TopKHeap.new`). -/
def TopK.init (k batch_size : Nat) : TopK K V :=
  { batch_size := batch_size, heap := TopKHeap.empty k, row_replacements := 0 }

/-- The per-row body of the loop of `TopK::insert_batch`: skip the row
when the heap is full and its key is not smaller than the current
maximum, otherwise add it (bumping the `row_replacements` counter). -/
def TopK.stepRow (st : TopK K V × RecordBatchEntry K V) (index : Nat)
    (kv : K × V) : TopK K V × RecordBatchEntry K V :=
  let (t, entry) := st
  match t.heap.k_largest with
  | some largest =>
      if largest.row ≤ kv.1 then (t, entry)
      else
        let (h, e) := t.heap.add entry kv.1 index
        ({ t with heap := h, row_replacements := t.row_replacements + 1 }, e)
  | none =>
      let (h, e) := t.heap.add entry kv.1 index
      ({ t with heap := h, row_replacements := t.row_replacements + 1 }, e)

/-- `TopK::insert_batch`: register the batch, run the per-row loop over
the encoded rows, then insert the batch entry into the store (kept only
if some of its rows were retained). -/
def TopK.insert_batch (t : TopK K V) (batch : List (K × V)) : TopK K V :=
  let (store1, entry) := t.heap.store.register batch
  let t1 : TopK K V := { t with heap := { t.heap with store := store1 } }
  let (t2, entry2) :=
    batch.enum.foldl (fun st (p : Nat × (K × V)) => TopK.stepRow st p.1 p.2) (t1, entry)
  { t2 with heap := { t2.heap with store := t2.heap.store.insertEntry entry2 } }

/-- Insert a sequence of batches in order. -/
def TopK.insertBatches (t : TopK K V) (batches : List (List (K × V))) : TopK K V :=
  batches.foldl TopK.insert_batch t

/-- `TopKHeap::emit`: resolve every retained row through the store, from
low to high.  A dangling `(batch_id, index)` (which would panic in the
source) resolves to `none`. -/
def TopKHeap.emit (h : TopKHeap K V) : List (Option (K × V)) :=
  h.inner.map (fun tr => (h.store.get tr.batch_id).bind (fun e => e.batch[tr.index]?))

/-- The batch-slicing loop of `TopK::emit`, splitting the emitted rows
into `batch_size` chunks.  (With `batch_size = 0` the source loop would
not terminate; the model returns a single chunk in that degenerate
case.) -/
def chunkRowsAux {α : Type} (bs : Nat) : Nat → List α → List (List α)
  | 0, l => [l]
  | fuel + 1, l => if l.length < bs then [l] else l.take bs :: chunkRowsAux bs fuel (l.drop bs)

def chunkRows {α : Type} (bs : Nat) (l : List α) : List (List α) :=
  if bs = 0 then [l] else chunkRowsAux bs l.length l

/-- `TopK::emit`: the heap contents, sliced into `batch_size` chunks. -/
def TopK.emit (t : TopK K V) : List (List (Option (K × V))) :=
  chunkRows t.batch_size t.heap.emit

/-! ### The stable-sort specification

`insStable r l` inserts `r` after every element of `l` whose key is
`≤ r`'s key; folding it over the input rows from the left yields the
stable sort by encoded key, ties resolved in favor of the
earlier-inserted row. -/

def insStable (r : K × V) (l : List (K × V)) : List (K × V) :=
  l.takeWhile (fun c => decide (c.1 ≤ r.1)) ++ r :: l.dropWhile (fun c => decide (c.1 ≤ r.1))

def sortStable (rows : List (K × V)) : List (K × V) :=
  rows.foldl (fun acc r => insStable r acc) []

/-! ### Ordered-insertion lemmas

Both `insertRowSorted` (on heap rows, keyed by `TopKRow.row`) and
`insStable` (on input rows, keyed by `Prod.fst`) are instances of
insertion after every element with a key `≤` the new key; the lemmas
below are stated generically over the key projection. -/

def insByLe {α : Type} (key : α → K) (r : α) (l : List α) : List α :=
  l.takeWhile (fun c => decide (key c ≤ key r)) ++ r :: l.dropWhile (fun c => decide (key c ≤ key r))

theorem insertRowSorted_eq_insByLe (inner : List (TopKRow K)) (r : TopKRow K) :
    insertRowSorted inner r = insByLe TopKRow.row r inner := rfl

theorem insStable_eq_insByLe (r : K × V) (l : List (K × V)) :
    insStable r l = insByLe Prod.fst r l := rfl

theorem insByLe_nil {α : Type} (key : α → K) (r : α) : insByLe key r [] = [r] := rfl

theorem mem_insByLe {α : Type} (key : α → K) (r b : α) (l : List α)
    (hb : b ∈ insByLe key r l) : b ∈ l ∨ b = r := by
  rcases List.mem_append.mp hb with h | h
  · exact Or.inl (List.takeWhile_subset _ h)
  · rcases List.mem_cons.mp h with rfl | h'
    · exact Or.inr rfl
    · exact Or.inl (List.dropWhile_subset _ h')

theorem insByLe_cons {α : Type} (key : α → K) (r c : α) (l : List α) :
    insByLe key r (c :: l) =
      if key c ≤ key r then c :: insByLe key r l else r :: c :: l := by
  by_cases h : key c ≤ key r <;>
    simp [insByLe, List.takeWhile_cons, List.dropWhile_cons, h]

theorem length_insByLe {α : Type} (key : α → K) (r : α) (l : List α) :
    (insByLe key r l).length = l.length + 1 := by
  induction l with
  | nil => rfl
  | cons c l ih =>
      rw [insByLe_cons]
      by_cases h : key c ≤ key r <;> simp [h, ih]

theorem pairwise_insByLe {α : Type} (key : α → K) (r : α) (l : List α)
    (hl : l.Pairwise (fun a b => key a ≤ key b)) :
    (insByLe key r l).Pairwise (fun a b => key a ≤ key b) := by
  induction l with
  | nil => simp [insByLe]
  | cons c l ih =>
      rw [insByLe_cons]
      rcases List.pairwise_cons.mp hl with ⟨hc, hl'⟩
      by_cases h : key c ≤ key r
      · simp only [if_pos h]
        refine List.pairwise_cons.mpr ⟨?_, ih hl'⟩
        intro b hb
        rcases mem_insByLe key r b _ hb with hb' | rfl
        · exact hc b hb'
        · exact h
      · simp only [if_neg h]
        refine List.pairwise_cons.mpr ⟨?_, hl⟩
        intro b hb
        have hrc : key r ≤ key c := le_of_lt (lt_of_not_le h)
        rcases List.mem_cons.mp hb with rfl | hb'
        · exact hrc
        · exact le_trans hrc (hc b hb')

/-- Inserting behind a full prefix: when the `k`-th smallest element of a
sorted list is `≤` the new key, the first `k + 1` elements are
unchanged by the insertion. -/
theorem insByLe_take_of_le {α : Type} (key : α → K) (r m : α) :
    ∀ (l : List α) (k : Nat), l.Pairwise (fun a b => key a ≤ key b) →
      l[k]? = some m → key m ≤ key r →
      (insByLe key r l).take (k + 1) = l.take (k + 1) := by
  intro l
  induction l with
  | nil => intro k _ hget; simp at hget
  | cons c l ih =>
      intro k hpw hget hle
      rcases List.pairwise_cons.mp hpw with ⟨hc, hl⟩
      rw [insByLe_cons]
      by_cases h : key c ≤ key r
      · rw [if_pos h]
        match k with
        | 0 => simp
        | k' + 1 =>
            simp only [List.getElem?_cons_succ] at hget
            simp only [List.take_succ_cons]
            rw [ih k' hl hget hle]
      · exfalso
        apply h
        match k with
        | 0 =>
            simp only [List.getElem?_cons_zero, Option.some.injEq] at hget
            exact hget ▸ hle
        | k' + 1 =>
            simp only [List.getElem?_cons_succ] at hget
            exact le_trans (hc m (List.getElem?_mem hget)) hle

/-- Inserting inside the first `k` elements: when the new key is
strictly below the `k`-th smallest element of a sorted list, the first
`k + 1` elements after insertion are the insertion into the first `k`
elements. -/
theorem insByLe_take_of_lt {α : Type} (key : α → K) (r m : α) :
    ∀ (l : List α) (k : Nat), l.Pairwise (fun a b => key a ≤ key b) →
      l[k]? = some m → key r < key m →
      (insByLe key r l).take (k + 1) = insByLe key r (l.take k) := by
  intro l
  induction l with
  | nil => intro k _ hget; simp at hget
  | cons c l ih =>
      intro k hpw hget hlt
      rcases List.pairwise_cons.mp hpw with ⟨hc, hl⟩
      rw [insByLe_cons]
      by_cases h : key c ≤ key r
      · rw [if_pos h]
        match k with
        | 0 =>
            simp only [List.getElem?_cons_zero, Option.some.injEq] at hget
            exact absurd (hget ▸ hlt) (not_lt_of_le h)
        | k' + 1 =>
            simp only [List.getElem?_cons_succ] at hget
            simp only [List.take_succ_cons]
            rw [ih k' hl hget hlt, insByLe_cons, if_pos h]
      · rw [if_neg h]
        match k with
        | 0 => simp [insByLe]
        | k' + 1 =>
            simp only [List.take_succ_cons]
            rw [insByLe_cons, if_neg h]

/-- Transporting `takeWhile`/`dropWhile` along an equality of mapped
lists, when the predicates are determined by the mapped values. -/
theorem takeWhile_dropWhile_map_congr {α β γ : Type} (f : α → γ) (g : β → γ)
    (p : α → Bool) (q : β → Bool) :
    ∀ (l1 : List α) (l2 : List β), l1.map f = l2.map g →
      (∀ a b, f a = g b → p a = q b) →
      (l1.takeWhile p).map f = (l2.takeWhile q).map g ∧
        (l1.dropWhile p).map f = (l2.dropWhile q).map g := by
  intro l1
  induction l1 with
  | nil =>
      intro l2 hmap _
      have : l2 = [] := by
        cases l2 with
        | nil => rfl
        | cons b l2' => simp at hmap
      subst this
      simp
  | cons a l1 ih =>
      intro l2 hmap hpq
      cases l2 with
      | nil => simp at hmap
      | cons b l2' =>
          simp only [List.map_cons, List.cons.injEq] at hmap
          obtain ⟨hab, htail⟩ := hmap
          have hpab := hpq a b hab
          rcases ih l2' htail hpq with ⟨htake, hdrop⟩
          by_cases hp : p a
          · have hq : q b = true := hpab ▸ hp
            simp [List.takeWhile_cons, List.dropWhile_cons, hp, hq, hab, htake, hdrop]
          · have hq : q b = false := by rw [← hpab]; simpa using hp
            simp [List.takeWhile_cons, List.dropWhile_cons, hp, hq, hab, htake, hdrop, htail]

/-- Transporting `insByLe` along an equality of mapped lists. -/
theorem map_insByLe_congr {α β γ : Type} (key1 : α → K) (key2 : β → K)
    (f : α → γ) (g : β → γ) (r1 : α) (r2 : β)
    (l1 : List α) (l2 : List β) (hmap : l1.map f = l2.map g)
    (hkey : ∀ a b, f a = g b → key1 a = key2 b)
    (hr : f r1 = g r2) (hrkey : key1 r1 = key2 r2) :
    (insByLe key1 r1 l1).map f = (insByLe key2 r2 l2).map g := by
  have hcong := takeWhile_dropWhile_map_congr f g
    (fun c => decide (key1 c ≤ key1 r1)) (fun c => decide (key2 c ≤ key2 r2))
    l1 l2 hmap (by
      intro a b hab
      simp only []
      rw [hkey a b hab, hrkey])
  rcases hcong with ⟨htake, hdrop⟩
  simp only [insByLe, List.map_append, List.map_cons, htake, hdrop, hr]

/-! ### Properties of the stable-sort specification -/

theorem length_insStable (r : K × V) (l : List (K × V)) :
    (insStable r l).length = l.length + 1 :=
  length_insByLe Prod.fst r l

theorem sortStable_append_singleton (rows : List (K × V)) (r : K × V) :
    sortStable (rows ++ [r]) = insStable r (sortStable rows) := by
  simp [sortStable, List.foldl_append]

theorem length_sortStable (rows : List (K × V)) :
    (sortStable rows).length = rows.length := by
  have : ∀ (rs : List (K × V)) (acc : List (K × V)),
      (rs.foldl (fun acc r => insStable r acc) acc).length = acc.length + rs.length := by
    intro rs
    induction rs with
    | nil => intro acc; simp
    | cons r rs ih =>
        intro acc
        simp only [List.foldl_cons, ih, length_insStable, List.length_cons]
        omega
  simpa using this rows []

theorem sortStable_pairwise (rows : List (K × V)) :
    (sortStable rows).Pairwise (fun a b => a.1 ≤ b.1) := by
  have : ∀ (rs : List (K × V)) (acc : List (K × V)),
      acc.Pairwise (fun a b => a.1 ≤ b.1) →
      (rs.foldl (fun acc r => insStable r acc) acc).Pairwise (fun a b => a.1 ≤ b.1) := by
    intro rs
    induction rs with
    | nil => intro acc h; simpa using h
    | cons r rs ih =>
        intro acc h
        exact ih _ (pairwise_insByLe Prod.fst r acc h)
  exact this rows [] (by simp)

/-! ### Heap and store invariants -/

/-- Number of heap rows pinning the batch with the given id. -/
def pinCount (inner : List (TopKRow K)) (id : Nat) : Nat :=
  (inner.filter (fun tr => decide (tr.batch_id = id))).length

/-- Resolution of a heap row through the store, as done by
`TopKHeap::emit`. -/
def resolveStore (store : RecordBatchStore K V) (tr : TopKRow K) : Option (K × V) :=
  (store.get tr.batch_id).bind (fun e => e.batch[tr.index]?)

/-- Resolution of a heap row during `TopK::insert_batch`, where the
current batch entry has not yet been inserted into the store. -/
def resolveWith (store : RecordBatchStore K V) (entry : RecordBatchEntry K V)
    (tr : TopKRow K) : Option (K × V) :=
  if tr.batch_id = entry.id then entry.batch[tr.index]? else resolveStore store tr

theorem emit_eq_map_resolveStore (h : TopKHeap K V) :
    h.emit = h.inner.map (fun tr => resolveStore h.store tr) := rfl

theorem resolveWith_uses (store : RecordBatchStore K V) (entry : RecordBatchEntry K V)
    (u : Nat) (tr : TopKRow K) :
    resolveWith store { entry with uses := u } tr = resolveWith store entry tr := rfl

theorem pinCount_insByLe (r : TopKRow K) (l : List (TopKRow K)) (id : Nat) :
    pinCount (insByLe TopKRow.row r l) id =
      pinCount l id + (if r.batch_id = id then 1 else 0) := by
  unfold pinCount insByLe
  rw [List.filter_append, List.filter_cons]
  conv_rhs => rw [← List.takeWhile_append_dropWhile
    (p := fun c => decide (c.row ≤ r.row)) (l := l)]
  rw [List.filter_append]
  by_cases h : r.batch_id = id <;> simp [h] <;> omega

theorem pinCount_append_singleton (l : List (TopKRow K)) (r : TopKRow K) (id : Nat) :
    pinCount (l ++ [r]) id = pinCount l id + (if r.batch_id = id then 1 else 0) := by
  unfold pinCount
  rw [List.filter_append, List.filter_cons]
  by_cases h : r.batch_id = id <;> simp [h]

theorem pinCount_eq_zero_iff (l : List (TopKRow K)) (id : Nat) :
    pinCount l id = 0 ↔ ∀ tr ∈ l, tr.batch_id ≠ id := by
  unfold pinCount
  rw [List.length_eq_zero, List.filter_eq_nil_iff]
  simp

/-- Pointwise consequence of an equality of mapped lists. -/
theorem forall_mem_of_map_eq {α β γ : Type} {f : α → γ} {g : β → γ} :
    ∀ {l1 : List α} {l2 : List β}, l1.map f = l2.map g →
      ∀ a ∈ l1, ∃ b ∈ l2, f a = g b := by
  intro l1
  induction l1 with
  | nil => intro l2 _ a ha; simp at ha
  | cons x l1 ih =>
      intro l2 hmap a ha
      cases l2 with
      | nil => simp at hmap
      | cons y l2' =>
          simp only [List.map_cons, List.cons.injEq] at hmap
          rcases List.mem_cons.mp ha with rfl | ha'
          · exact ⟨y, List.mem_cons_self y l2', hmap.1⟩
          · rcases ih hmap.2 a ha' with ⟨b, hb, hfb⟩
            exact ⟨b, List.mem_cons_of_mem y hb, hfb⟩

theorem get_mem_and_id (s : RecordBatchStore K V) (id : Nat) (e : RecordBatchEntry K V)
    (h : s.get id = some e) : e ∈ s.batches ∧ e.id = id := by
  unfold RecordBatchStore.get at h
  refine ⟨List.mem_of_find?_eq_some h, ?_⟩
  have := List.find?_some h
  simpa using this

theorem get_eq_none_iff (s : RecordBatchStore K V) (id : Nat) :
    s.get id = none ↔ ∀ e ∈ s.batches, e.id ≠ id := by
  unfold RecordBatchStore.get
  rw [List.find?_eq_none]
  simp

theorem find?_unuse_list_ne (pid id : Nat) (h : id ≠ pid) :
    ∀ l : List (RecordBatchEntry K V),
      ((l.map (fun e => if e.id = pid then { e with uses := e.uses - 1 } else e)).filter
          (fun e => decide (e.id ≠ pid) || decide (0 < e.uses))).find?
            (fun e => decide (e.id = id))
        = l.find? (fun e => decide (e.id = id)) := by
  intro l
  induction l with
  | nil => rfl
  | cons e rest ih =>
      simp only [List.map_cons, List.filter_cons]
      by_cases he : e.id = pid
      · rw [if_pos he]
        have hne : ¬ (({ e with uses := e.uses - 1 } : RecordBatchEntry K V).id = id) := by
          simp only []
          omega
        by_cases hk : 0 < e.uses - 1
        · rw [if_pos (by simp [hk])]
          rw [List.find?_cons_of_neg _ (by simpa using hne), ih,
            List.find?_cons_of_neg _ (by simp; omega)]
        · rw [if_neg (by simp [he]; omega), ih,
            List.find?_cons_of_neg _ (by simp; omega)]
      · rw [if_neg he, if_pos (by simp [he])]
        by_cases hid : e.id = id
        · rw [List.find?_cons_of_pos _ (by simpa using hid),
            List.find?_cons_of_pos _ (by simpa using hid)]
        · rw [List.find?_cons_of_neg _ (by simpa using hid),
            List.find?_cons_of_neg _ (by simpa using hid), ih]

/-- `unuse` does not touch entries with a different id. -/
theorem get_unuse_ne (s : RecordBatchStore K V) (pid id : Nat) (h : id ≠ pid) :
    (s.unuse pid).get id = s.get id := by
  simp only [RecordBatchStore.unuse, RecordBatchStore.get]
  exact find?_unuse_list_ne pid id h s.batches

theorem find?_unuse_list_self (pid : Nat) (e : RecordBatchEntry K V) (huses : 2 ≤ e.uses) :
    ∀ l : List (RecordBatchEntry K V),
      l.find? (fun x => decide (x.id = pid)) = some e →
      ((l.map (fun x => if x.id = pid then { x with uses := x.uses - 1 } else x)).filter
          (fun x => decide (x.id ≠ pid) || decide (0 < x.uses))).find?
            (fun x => decide (x.id = pid))
        = some { e with uses := e.uses - 1 } := by
  intro l
  induction l with
  | nil => intro hget; simp at hget
  | cons x rest ih =>
      intro hget
      simp only [List.map_cons, List.filter_cons]
      by_cases hx : x.id = pid
      · rw [List.find?_cons_of_pos _ (by simpa using hx)] at hget
        cases hget
        rw [if_pos hx, if_pos (by simp; omega),
          List.find?_cons_of_pos _ (by simpa using hx)]
      · rw [List.find?_cons_of_neg _ (by simpa using hx)] at hget
        rw [if_neg hx, if_pos (by simp [hx]),
          List.find?_cons_of_neg _ (by simpa using hx)]
        exact ih hget

/-- `unuse` on an entry with at least two uses keeps it, decremented. -/
theorem get_unuse_self (s : RecordBatchStore K V) (pid : Nat) (e : RecordBatchEntry K V)
    (hget : s.get pid = some e) (huses : 2 ≤ e.uses) :
    (s.unuse pid).get pid = some { e with uses := e.uses - 1 } := by
  simp only [RecordBatchStore.unuse, RecordBatchStore.get] at hget ⊢
  exact find?_unuse_list_self pid e huses s.batches hget

/-- Source of an entry of the store after `unuse`. -/
theorem mem_unuse (s : RecordBatchStore K V) (pid : Nat) (e' : RecordBatchEntry K V)
    (h : e' ∈ (s.unuse pid).batches) :
    ∃ e ∈ s.batches, (e.id ≠ pid ∧ e' = e) ∨
      (e.id = pid ∧ e' = { e with uses := e.uses - 1 } ∧ 0 < e.uses - 1) := by
  unfold RecordBatchStore.unuse at h
  simp only [List.mem_filter, List.mem_map] at h
  rcases h with ⟨⟨e, he, heq⟩, hkeep⟩
  refine ⟨e, he, ?_⟩
  by_cases hid : e.id = pid
  · rw [if_pos hid] at heq
    right
    refine ⟨hid, heq.symm, ?_⟩
    subst heq
    simp only [hid, decide_eq_true_eq] at hkeep
    simpa using hkeep
  · rw [if_neg hid] at heq
    exact Or.inl ⟨hid, heq.symm⟩

/-- The ids of the store after `unuse` form a subsequence of the
original ids. -/
theorem unuse_ids_sublist (s : RecordBatchStore K V) (pid : Nat) :
    ((s.unuse pid).batches.map RecordBatchEntry.id).Sublist
      (s.batches.map RecordBatchEntry.id) := by
  have h1 : (s.unuse pid).batches.Sublist
      (s.batches.map (fun e => if e.id = pid then { e with uses := e.uses - 1 } else e)) := by
    simp only [RecordBatchStore.unuse]
    exact List.filter_sublist _
  have h2 := h1.map RecordBatchEntry.id
  rw [List.map_map] at h2
  have h3 : s.batches.map (RecordBatchEntry.id ∘ fun e =>
      if e.id = pid then { e with uses := e.uses - 1 } else e)
      = s.batches.map RecordBatchEntry.id := by
    refine List.map_congr_left ?_
    intro e _
    by_cases hid : e.id = pid <;> simp [Function.comp, hid]
  rwa [h3] at h2

/-- Invariant of the Top-K operator between calls to `insert_batch`,
relative to the bound `k` and the rows `P` processed so far, in order:
the heap rows are sorted, there are `min |P| k` of them, they resolve
through the store exactly to the first `k` rows of the stable sort of
`P`, and every stored batch's use count equals the number of heap rows
pinning it and is positive. -/
structure HeapInv (k : Nat) (P : List (K × V)) (h : TopKHeap K V) : Prop where
  hk : h.k = k
  sorted : h.inner.Pairwise (fun a b => a.row ≤ b.row)
  len : h.inner.length = min P.length k
  resEq : h.inner.map (fun tr => (resolveStore h.store tr, tr.row))
        = ((sortStable P).take k).map (fun rv => (some rv, rv.1))
  uses_store : ∀ e ∈ h.store.batches, e.uses = pinCount h.inner e.id ∧ 0 < e.uses
  ids_lt : ∀ e ∈ h.store.batches, e.id < h.store.next_id
  ids_nodup : (h.store.batches.map RecordBatchEntry.id).Nodup

/-- Invariant during `insert_batch`, while the entry of the current
batch has been registered but not yet inserted into the store.  `P` are
all rows processed so far, including the prefix of the current batch
`b`. -/
structure MidInv (k : Nat) (P : List (K × V)) (b : List (K × V))
    (h : TopKHeap K V) (entry : RecordBatchEntry K V) : Prop where
  hk : h.k = k
  sorted : h.inner.Pairwise (fun a b => a.row ≤ b.row)
  len : h.inner.length = min P.length k
  resEq : h.inner.map (fun tr => (resolveWith h.store entry tr, tr.row))
        = ((sortStable P).take k).map (fun rv => (some rv, rv.1))
  uses_store : ∀ e ∈ h.store.batches, e.uses = pinCount h.inner e.id ∧ 0 < e.uses
  uses_entry : entry.uses = pinCount h.inner entry.id
  entry_batch : entry.batch = b
  ids_lt : ∀ e ∈ h.store.batches, e.id < h.store.next_id
  entry_lt : entry.id < h.store.next_id
  fresh : ∀ e ∈ h.store.batches, e.id ≠ entry.id
  ids_nodup : (h.store.batches.map RecordBatchEntry.id).Nodup

theorem heapInv_init (k : Nat) : HeapInv k [] (TopKHeap.empty (K := K) (V := V) k) := by
  refine ⟨rfl, ?_, ?_, ?_, ?_, ?_, ?_⟩ <;>
    simp [TopKHeap.empty, RecordBatchStore.new, sortStable]

theorem pinCount_pos_of_mem (l : List (TopKRow K)) (tr : TopKRow K) (id : Nat)
    (hmem : tr ∈ l) (hid : tr.batch_id = id) : 0 < pinCount l id := by
  unfold pinCount
  rw [List.length_pos]
  intro hnil
  have : tr ∈ l.filter (fun tr => decide (tr.batch_id = id)) :=
    List.mem_filter.mpr ⟨hmem, by simpa using hid⟩
  rw [hnil] at this
  simp at this

theorem k_largest_none_lt (h : TopKHeap K V) (hk : 0 < h.k)
    (hnone : h.k_largest = none) : h.inner.length < h.k := by
  unfold TopKHeap.k_largest at hnone
  by_cases hlt : h.inner.length < h.k
  · exact hlt
  · rw [if_neg hlt, List.getLast?_eq_none_iff] at hnone
    rw [hnone] at hlt
    simp at hlt
    omega

theorem k_largest_some_facts (h : TopKHeap K V) (largest : TopKRow K)
    (hl : h.k_largest = some largest) :
    h.k ≤ h.inner.length ∧ h.inner.getLast? = some largest := by
  unfold TopKHeap.k_largest at hl
  by_cases hlt : h.inner.length < h.k
  · rw [if_pos hlt] at hl; simp at hl
  · exact ⟨le_of_not_lt hlt, by rwa [if_neg hlt] at hl⟩

/-- Reduction of `TopKHeap.add` when the heap is not yet full. -/
theorem add_not_full (h : TopKHeap K V) (entry : RecordBatchEntry K V)
    (row : K) (index : Nat) (hlen : ¬ h.inner.length = h.k) :
    h.add entry row index =
      ({ h with inner := insertRowSorted h.inner ⟨row, entry.id, index⟩ },
        { entry with uses := entry.uses + 1 }) := by
  simp only [TopKHeap.add, if_neg hlen]

/-- Reduction of `TopKHeap.add` when the heap is full and the popped row
pins the current batch. -/
theorem add_full_same (h : TopKHeap K V) (entry : RecordBatchEntry K V)
    (row : K) (index : Nat) (prev : TopKRow K)
    (hlen : h.inner.length = h.k) (hlast : h.inner.getLast? = some prev)
    (hsame : prev.batch_id = entry.id) :
    h.add entry row index =
      ({ h with inner := insertRowSorted h.inner.dropLast ⟨row, entry.id, index⟩ },
        entry) := by
  simp only [TopKHeap.add, if_pos hlen, hlast, if_pos hsame, Nat.add_sub_cancel]

/-- Reduction of `TopKHeap.add` when the heap is full and the popped row
pins an older batch. -/
theorem add_full_other (h : TopKHeap K V) (entry : RecordBatchEntry K V)
    (row : K) (index : Nat) (prev : TopKRow K)
    (hlen : h.inner.length = h.k) (hlast : h.inner.getLast? = some prev)
    (hdiff : ¬ prev.batch_id = entry.id) :
    h.add entry row index =
      ({ h with inner := insertRowSorted h.inner.dropLast ⟨row, entry.id, index⟩,
                store := h.store.unuse prev.batch_id },
        { entry with uses := entry.uses + 1 }) := by
  simp only [TopKHeap.add, if_pos hlen, hlast, if_neg hdiff]

/-- Registering a fresh batch turns the between-batches invariant into
the in-batch invariant. -/
theorem midInv_register (k : Nat) (P : List (K × V)) (h : TopKHeap K V)
    (b : List (K × V)) (hinv : HeapInv k P h) :
    MidInv k P b { h with store := (h.store.register b).1 } (h.store.register b).2 := by
  obtain ⟨hk, hsorted, hlen, hres, huses, hidslt, hnodup⟩ := hinv
  have hnotref : ∀ tr ∈ h.inner, tr.batch_id ≠ h.store.next_id := by
    intro tr htr hid
    rcases forall_mem_of_map_eq hres tr htr with ⟨rv, _, hfg⟩
    rw [Prod.mk.injEq] at hfg
    have hsome : resolveStore h.store tr = some rv := hfg.1
    unfold resolveStore at hsome
    cases hget : h.store.get tr.batch_id with
    | none => rw [hget] at hsome; simp at hsome
    | some e =>
        rcases get_mem_and_id _ _ _ hget with ⟨hmem, hide⟩
        have := hidslt e hmem
        omega
  refine ⟨hk, hsorted, hlen, ?_, ?_, ?_, rfl, ?_, ?_, ?_, ?_⟩
  · rw [← hres]
    refine List.map_congr_left ?_
    intro tr htr
    simp only [RecordBatchStore.register]
    rw [resolveWith, if_neg (hnotref tr htr)]
    rfl
  · intro e hmem
    exact huses e hmem
  · simp only [RecordBatchStore.register]
    exact ((pinCount_eq_zero_iff _ _).mpr hnotref).symm
  · intro e hmem
    simp only [RecordBatchStore.register]
    have := hidslt e hmem
    omega
  · simp [RecordBatchStore.register]
  · intro e hmem
    simp only [RecordBatchStore.register]
    have := hidslt e hmem
    omega
  · exact hnodup

/-- Inserting the batch entry at the end of `insert_batch` restores the
between-batches invariant. -/
theorem heapInv_insertEntry (k : Nat) (P : List (K × V)) (b : List (K × V))
    (h : TopKHeap K V) (entry : RecordBatchEntry K V)
    (hinv : MidInv k P b h entry) :
    HeapInv k P { h with store := h.store.insertEntry entry } := by
  obtain ⟨hk, hsorted, hlen, hres, huses, hue, hbatch, hidslt, helt, hfresh, hnodup⟩ := hinv
  by_cases hu : 0 < entry.uses
  · have hfilter : h.store.batches.filter (fun bb => decide (bb.id ≠ entry.id))
        = h.store.batches := by
      rw [List.filter_eq_self]
      intro e hmem
      simpa using hfresh e hmem
    have hbatches : (h.store.insertEntry entry).batches
        = h.store.batches ++ [entry] := by
      simp only [RecordBatchStore.insertEntry, if_pos hu, hfilter]
    have hnext : (h.store.insertEntry entry).next_id = h.store.next_id := by
      simp only [RecordBatchStore.insertEntry, if_pos hu]
    have hget_eq : ∀ tr ∈ h.inner,
        resolveStore (h.store.insertEntry entry) tr = resolveWith h.store entry tr := by
      intro tr _
      unfold resolveStore resolveWith RecordBatchStore.get
      rw [hbatches, List.find?_append]
      by_cases hid : tr.batch_id = entry.id
      · have hnone : h.store.batches.find? (fun e => decide (e.id = tr.batch_id)) = none := by
          rw [List.find?_eq_none]
          intro e hmem
          simp only [decide_eq_true_eq]
          rw [hid]
          exact hfresh e hmem
        rw [if_pos hid, hnone]
        simp [hid]
      · cases hfind : h.store.batches.find? (fun e => decide (e.id = tr.batch_id)) with
        | some e => rw [if_neg hid]; simp [resolveStore, RecordBatchStore.get, hfind]
        | none =>
            rw [if_neg hid]
            have h1 : List.find? (fun e => decide (e.id = tr.batch_id)) [entry] = none := by
              rw [List.find?_cons_of_neg _ (by simpa using fun hh => hid hh.symm)]
              rfl
            rw [h1]
            simp [resolveStore, RecordBatchStore.get, hfind]
    refine ⟨hk, hsorted, hlen, ?_, ?_, ?_, ?_⟩
    · rw [← hres]
      refine List.map_congr_left ?_
      intro tr htr
      rw [hget_eq tr htr]
    · intro e hmem
      rw [hbatches, List.mem_append] at hmem
      rcases hmem with hmem | hmem
      · exact huses e hmem
      · rcases List.mem_singleton.mp hmem with rfl
        exact ⟨hue, hu⟩
    · intro e hmem
      rw [hbatches, List.mem_append] at hmem
      rw [hnext]
      rcases hmem with hmem | hmem
      · exact hidslt e hmem
      · rcases List.mem_singleton.mp hmem with rfl
        exact helt
    · rw [hbatches, List.map_append]
      simp only [List.map_cons, List.map_nil]
      rw [List.nodup_append]
      refine ⟨hnodup, List.nodup_singleton _, ?_⟩
      intro a ha hb
      rcases List.mem_singleton.mp hb with rfl
      rcases List.mem_map.mp ha with ⟨e, hmem, hide⟩
      exact hfresh e hmem hide
  · -- the batch had no retained rows and is dropped
    have hstore : h.store.insertEntry entry = h.store := by
      simp only [RecordBatchStore.insertEntry, if_neg hu]
    have hzero : pinCount h.inner entry.id = 0 := by omega
    have hnotref : ∀ tr ∈ h.inner, tr.batch_id ≠ entry.id :=
      (pinCount_eq_zero_iff _ _).mp hzero
    refine ⟨hk, hsorted, hlen, ?_, ?_, ?_, ?_⟩
    · rw [hstore, ← hres]
      refine List.map_congr_left ?_
      intro tr htr
      rw [resolveWith, if_neg (hnotref tr htr)]
    · rw [hstore]; exact huses
    · rw [hstore]; exact hidslt
    · rw [hstore]; exact hnodup

/-- Adding a row while the heap is not yet full preserves the in-batch
invariant. -/
theorem midInv_add_notfull (k : Nat) (P b : List (K × V)) (h : TopKHeap K V)
    (entry : RecordBatchEntry K V) (j : Nat) (r : K × V)
    (hinv : MidInv k P b h entry) (hj : b[j]? = some r)
    (hlen : h.inner.length < k) :
    MidInv k (P ++ [r]) b
      { h with inner := insertRowSorted h.inner ⟨r.1, entry.id, j⟩ }
      { entry with uses := entry.uses + 1 } := by
  obtain ⟨hk, hsorted, hlen', hres, huses, hue, hbatch, hidslt, helt, hfresh, hnodup⟩ := hinv
  have hPlen : P.length < k := by
    by_contra hge
    push_neg at hge
    rw [min_eq_right hge] at hlen'
    omega
  have hinlen : h.inner.length = P.length := by
    rw [hlen', min_eq_left (le_of_lt hPlen)]
  have hTfull : (sortStable P).take k = sortStable P :=
    List.take_of_length_le (by rw [length_sortStable]; omega)
  rw [hTfull] at hres
  have hgoalT : (sortStable (P ++ [r])).take k = insByLe Prod.fst r (sortStable P) := by
    rw [sortStable_append_singleton, insStable_eq_insByLe]
    exact List.take_of_length_le
      (by rw [length_insByLe, length_sortStable]; omega)
  refine ⟨hk, ?_, ?_, ?_, ?_, ?_, hbatch, hidslt, helt, ?_, hnodup⟩
  · show (insertRowSorted h.inner ⟨r.1, entry.id, j⟩).Pairwise (fun a b => a.row ≤ b.row)
    rw [insertRowSorted_eq_insByLe]
    exact pairwise_insByLe TopKRow.row _ _ hsorted
  · show (insertRowSorted h.inner ⟨r.1, entry.id, j⟩).length = min (P ++ [r]).length k
    rw [insertRowSorted_eq_insByLe, length_insByLe, hinlen, List.length_append]
    simp only [List.length_cons, List.length_nil]
    rw [min_eq_left (by omega)]
  · show (insertRowSorted h.inner ⟨r.1, entry.id, j⟩).map
        (fun tr => (resolveWith h.store { entry with uses := entry.uses + 1 } tr, tr.row))
      = ((sortStable (P ++ [r])).take k).map (fun rv => (some rv, rv.1))
    rw [hgoalT, insertRowSorted_eq_insByLe]
    refine map_insByLe_congr TopKRow.row Prod.fst _ _ _ r h.inner (sortStable P) ?_ ?_ ?_ rfl
    · exact hres
    · intro a b' heq
      rw [Prod.mk.injEq] at heq
      exact heq.2
    · show (resolveWith h.store { entry with uses := entry.uses + 1 }
          ⟨r.1, entry.id, j⟩, r.1) = (some r, r.1)
      simp [resolveWith, hbatch, hj]
  · intro e hmem
    obtain ⟨h1, h2⟩ := huses e hmem
    refine ⟨?_, h2⟩
    show e.uses = pinCount (insertRowSorted h.inner ⟨r.1, entry.id, j⟩) e.id
    rw [insertRowSorted_eq_insByLe, pinCount_insByLe,
      if_neg (fun hh => hfresh e hmem hh.symm)]
    simpa using h1
  · show entry.uses + 1 = pinCount (insertRowSorted h.inner ⟨r.1, entry.id, j⟩) entry.id
    rw [insertRowSorted_eq_insByLe, pinCount_insByLe, if_pos rfl, ← hue]
  · intro e hmem
    exact hfresh e hmem

/-- Decomposition of a full heap satisfying the in-batch invariant: the
last heap row corresponds to the `k`-th row of the stable sort. -/
theorem midInv_full_split (k' : Nat) (P b : List (K × V)) (h : TopKHeap K V)
    (entry : RecordBatchEntry K V) (prev : TopKRow K)
    (hinv : MidInv (k' + 1) P b h entry)
    (hlast : h.inner.getLast? = some prev)
    (hlenk : h.inner.length = k' + 1) :
    ∃ m, h.inner.dropLast.length = k' ∧
      (sortStable P)[k']? = some m ∧
      prev.row = m.1 ∧
      resolveWith h.store entry prev = some m ∧
      h.inner.dropLast.map (fun tr => (resolveWith h.store entry tr, tr.row))
        = ((sortStable P).take k').map (fun rv => (some rv, rv.1)) ∧
      k' + 1 ≤ P.length := by
  obtain ⟨hk, hsorted, hlen', hres, huses, hue, hbatch, hidslt, helt, hfresh, hnodup⟩ := hinv
  obtain ⟨inner0, hsplit⟩ := List.getLast?_eq_some_iff.mp hlast
  have hP : k' + 1 ≤ P.length := by
    by_contra hc
    push_neg at hc
    rw [min_eq_left (le_of_lt hc)] at hlen'
    omega
  have hdrop0 : h.inner.dropLast = inner0 := by rw [hsplit, List.dropLast_concat]
  have hlen0 : inner0.length = k' := by
    rw [hsplit, List.length_append] at hlenk
    simpa using hlenk
  have hTlen : ((sortStable P).take (k' + 1)).length = k' + 1 := by
    rw [List.length_take, length_sortStable]
    omega
  rw [hsplit, List.map_append] at hres
  simp only [List.map_cons, List.map_nil] at hres
  have hlast1 := congrArg List.getLast? hres
  rw [List.getLast?_concat, List.getLast?_map] at hlast1
  cases hTl : ((sortStable P).take (k' + 1)).getLast? with
  | none => rw [hTl] at hlast1; simp at hlast1
  | some m =>
      rw [hTl] at hlast1
      simp only [Option.map_some'] at hlast1
      have hfg : (resolveWith h.store entry prev, prev.row) = (some m, m.1) := by
        exact Option.some.inj hlast1
      rw [Prod.mk.injEq] at hfg
      have hmL : (sortStable P)[k']? = some m := by
        have hh := hTl
        rw [List.getLast?_eq_getElem?, hTlen] at hh
        simpa [List.getElem?_take_of_lt (Nat.lt_succ_self k')] using hh
      have hmap0 : inner0.map (fun tr => (resolveWith h.store entry tr, tr.row))
          = ((sortStable P).take k').map (fun rv => (some rv, rv.1)) := by
        have hdl := congrArg List.dropLast hres
        rw [List.dropLast_concat, ← List.map_dropLast, List.dropLast_eq_take, hTlen,
          List.take_take] at hdl
        have hmin : (k' + 1 - 1) ⊓ (k' + 1) = k' := by omega
        rw [hmin] at hdl
        exact hdl
      exact ⟨m, hdrop0 ▸ hlen0, hmL, hfg.2, hfg.1, by rw [hdrop0]; exact hmap0, hP⟩

/-- Adding a row to a full heap whose evicted row pins the current
batch preserves the in-batch invariant. -/
theorem midInv_add_full_same (k' : Nat) (P b : List (K × V)) (h : TopKHeap K V)
    (entry : RecordBatchEntry K V) (prev : TopKRow K) (j : Nat) (r : K × V)
    (hinv : MidInv (k' + 1) P b h entry) (hj : b[j]? = some r)
    (hlast : h.inner.getLast? = some prev)
    (hlenk : h.inner.length = k' + 1)
    (hlt : r.1 < prev.row)
    (hsame : prev.batch_id = entry.id) :
    MidInv (k' + 1) (P ++ [r]) b
      { h with inner := insertRowSorted h.inner.dropLast ⟨r.1, entry.id, j⟩ }
      entry := by
  obtain ⟨m, hlen0, hmL, hprow, hpres, hmap0, hP⟩ :=
    midInv_full_split k' P b h entry prev hinv hlast hlenk
  obtain ⟨hk, hsorted, hlen', hres, huses, hue, hbatch, hidslt, helt, hfresh, hnodup⟩ := hinv
  obtain ⟨inner0, hsplit⟩ := List.getLast?_eq_some_iff.mp hlast
  have hdrop0 : h.inner.dropLast = inner0 := by rw [hsplit, List.dropLast_concat]
  rw [hdrop0] at hlen0 hmap0 ⊢
  have hsorted0 : inner0.Pairwise (fun a bb => a.row ≤ bb.row) := by
    rw [hsplit] at hsorted
    exact (List.pairwise_append.mp hsorted).1
  have hpin : ∀ id : Nat, pinCount h.inner id
      = pinCount inner0 id + (if prev.batch_id = id then 1 else 0) := by
    intro id
    rw [hsplit]
    exact pinCount_append_singleton inner0 prev id
  have hrhs : (sortStable (P ++ [r])).take (k' + 1)
      = insByLe Prod.fst r ((sortStable P).take k') := by
    rw [sortStable_append_singleton, insStable_eq_insByLe]
    exact insByLe_take_of_lt Prod.fst r m (sortStable P) k'
      (sortStable_pairwise P) hmL (hprow ▸ hlt)
  refine ⟨hk, ?_, ?_, ?_, ?_, ?_, hbatch, hidslt, helt, hfresh, hnodup⟩
  · show (insertRowSorted inner0 ⟨r.1, entry.id, j⟩).Pairwise (fun a b => a.row ≤ b.row)
    rw [insertRowSorted_eq_insByLe]
    exact pairwise_insByLe TopKRow.row _ _ hsorted0
  · show (insertRowSorted inner0 ⟨r.1, entry.id, j⟩).length = min (P ++ [r]).length (k' + 1)
    rw [insertRowSorted_eq_insByLe, length_insByLe, hlen0, List.length_append]
    simp only [List.length_cons, List.length_nil]
    rw [min_eq_right (by omega)]
  · show (insertRowSorted inner0 ⟨r.1, entry.id, j⟩).map
        (fun tr => (resolveWith h.store entry tr, tr.row))
      = ((sortStable (P ++ [r])).take (k' + 1)).map (fun rv => (some rv, rv.1))
    rw [hrhs, insertRowSorted_eq_insByLe]
    refine map_insByLe_congr TopKRow.row Prod.fst _ _ _ r inner0
      ((sortStable P).take k') hmap0 ?_ ?_ rfl
    · intro a b' heq
      rw [Prod.mk.injEq] at heq
      exact heq.2
    · show (resolveWith h.store entry ⟨r.1, entry.id, j⟩, r.1) = (some r, r.1)
      simp [resolveWith, hbatch, hj]
  · intro e hmem
    obtain ⟨h1, h2⟩ := huses e hmem
    refine ⟨?_, h2⟩
    show e.uses = pinCount (insertRowSorted inner0 ⟨r.1, entry.id, j⟩) e.id
    rw [insertRowSorted_eq_insByLe, pinCount_insByLe,
      if_neg (fun hh => hfresh e hmem hh.symm)]
    rw [h1, hpin e.id, if_neg (fun hh => hfresh e hmem (hsame ▸ hh).symm)]
  · show entry.uses = pinCount (insertRowSorted inner0 ⟨r.1, entry.id, j⟩) entry.id
    rw [insertRowSorted_eq_insByLe, pinCount_insByLe, if_pos rfl,
      hue, hpin entry.id, if_pos hsame]

/-- Adding a row to a full heap whose evicted row pins an older batch
preserves the in-batch invariant: the older batch's use count is
decremented (releasing the batch when it was its last pin). -/
theorem midInv_add_full_other (k' : Nat) (P b : List (K × V)) (h : TopKHeap K V)
    (entry : RecordBatchEntry K V) (prev : TopKRow K) (j : Nat) (r : K × V)
    (hinv : MidInv (k' + 1) P b h entry) (hj : b[j]? = some r)
    (hlast : h.inner.getLast? = some prev)
    (hlenk : h.inner.length = k' + 1)
    (hlt : r.1 < prev.row)
    (hdiff : ¬ prev.batch_id = entry.id) :
    MidInv (k' + 1) (P ++ [r]) b
      { h with inner := insertRowSorted h.inner.dropLast ⟨r.1, entry.id, j⟩,
               store := h.store.unuse prev.batch_id }
      { entry with uses := entry.uses + 1 } := by
  obtain ⟨m, hlen0, hmL, hprow, hpres, hmap0, hP⟩ :=
    midInv_full_split k' P b h entry prev hinv hlast hlenk
  obtain ⟨hk, hsorted, hlen', hres, huses, hue, hbatch, hidslt, helt, hfresh, hnodup⟩ := hinv
  obtain ⟨inner0, hsplit⟩ := List.getLast?_eq_some_iff.mp hlast
  have hdrop0 : h.inner.dropLast = inner0 := by rw [hsplit, List.dropLast_concat]
  rw [hdrop0] at hlen0 hmap0 ⊢
  have hsorted0 : inner0.Pairwise (fun a bb => a.row ≤ bb.row) := by
    rw [hsplit] at hsorted
    exact (List.pairwise_append.mp hsorted).1
  have hpin : ∀ id : Nat, pinCount h.inner id
      = pinCount inner0 id + (if prev.batch_id = id then 1 else 0) := by
    intro id
    rw [hsplit]
    exact pinCount_append_singleton inner0 prev id
  -- the evicted row's batch is in the store
  rw [resolveWith, if_neg hdiff] at hpres
  obtain ⟨ep, hget⟩ : ∃ ep, h.store.get prev.batch_id = some ep := by
    unfold resolveStore at hpres
    cases hg : h.store.get prev.batch_id with
    | none => rw [hg] at hpres; simp at hpres
    | some ep => exact ⟨ep, rfl⟩
  obtain ⟨hep_mem, hep_id⟩ := get_mem_and_id _ _ _ hget
  have hep_uses : ep.uses = pinCount h.inner ep.id := (huses ep hep_mem).1
  have hpinfull : pinCount h.inner prev.batch_id = pinCount inner0 prev.batch_id + 1 := by
    rw [hpin prev.batch_id, if_pos rfl]
  -- row resolution is unchanged for the surviving rows
  have hresolve_eq : ∀ tr ∈ inner0,
      resolveWith (h.store.unuse prev.batch_id) { entry with uses := entry.uses + 1 } tr
        = resolveWith h.store entry tr := by
    intro tr htr0
    rw [resolveWith_uses]
    unfold resolveWith
    by_cases hid : tr.batch_id = entry.id
    · rw [if_pos hid, if_pos hid]
    · rw [if_neg hid, if_neg hid]
      by_cases hpid : tr.batch_id = prev.batch_id
      · have hpin0 : 0 < pinCount inner0 prev.batch_id :=
          pinCount_pos_of_mem inner0 tr _ htr0 hpid
        have h2 : 2 ≤ ep.uses := by
          rw [hep_uses, hep_id]
          omega
        unfold resolveStore
        rw [hpid, get_unuse_self h.store prev.batch_id ep hget h2, hget]
        rfl
      · unfold resolveStore
        rw [get_unuse_ne h.store prev.batch_id tr.batch_id hpid]
  have hrhs : (sortStable (P ++ [r])).take (k' + 1)
      = insByLe Prod.fst r ((sortStable P).take k') := by
    rw [sortStable_append_singleton, insStable_eq_insByLe]
    exact insByLe_take_of_lt Prod.fst r m (sortStable P) k'
      (sortStable_pairwise P) hmL (hprow ▸ hlt)
  refine ⟨hk, ?_, ?_, ?_, ?_, ?_, hbatch, ?_, helt, ?_, ?_⟩
  · show (insertRowSorted inner0 ⟨r.1, entry.id, j⟩).Pairwise (fun a b => a.row ≤ b.row)
    rw [insertRowSorted_eq_insByLe]
    exact pairwise_insByLe TopKRow.row _ _ hsorted0
  · show (insertRowSorted inner0 ⟨r.1, entry.id, j⟩).length = min (P ++ [r]).length (k' + 1)
    rw [insertRowSorted_eq_insByLe, length_insByLe, hlen0, List.length_append]
    simp only [List.length_cons, List.length_nil]
    rw [min_eq_right (by omega)]
  · show (insertRowSorted inner0 ⟨r.1, entry.id, j⟩).map
        (fun tr => (resolveWith (h.store.unuse prev.batch_id)
          { entry with uses := entry.uses + 1 } tr, tr.row))
      = ((sortStable (P ++ [r])).take (k' + 1)).map (fun rv => (some rv, rv.1))
    rw [hrhs, insertRowSorted_eq_insByLe]
    have hmap0' : inner0.map (fun tr => (resolveWith (h.store.unuse prev.batch_id)
        { entry with uses := entry.uses + 1 } tr, tr.row))
        = ((sortStable P).take k').map (fun rv => (some rv, rv.1)) := by
      rw [← hmap0]
      refine List.map_congr_left ?_
      intro tr htr
      rw [hresolve_eq tr htr]
    refine map_insByLe_congr TopKRow.row Prod.fst _ _ _ r inner0
      ((sortStable P).take k') hmap0' ?_ ?_ rfl
    · intro a b' heq
      rw [Prod.mk.injEq] at heq
      exact heq.2
    · show (resolveWith (h.store.unuse prev.batch_id)
        { entry with uses := entry.uses + 1 } ⟨r.1, entry.id, j⟩, r.1) = (some r, r.1)
      simp [resolveWith, hbatch, hj]
  · intro e' hmem'
    rcases mem_unuse h.store prev.batch_id e' hmem' with ⟨e, hmem, hcase⟩
    rcases hcase with ⟨hne, heqe⟩ | ⟨hpid_eq, heq', hpos⟩
    · obtain ⟨h1, h2⟩ := huses e hmem
      subst heqe
      refine ⟨?_, h2⟩
      show e'.uses = pinCount (insertRowSorted inner0 ⟨r.1, entry.id, j⟩) e'.id
      rw [insertRowSorted_eq_insByLe, pinCount_insByLe,
        if_neg (fun hh => hfresh e' hmem hh.symm), h1, hpin e'.id,
        if_neg (fun hh => hne hh.symm)]
    · subst heq'
      refine ⟨?_, hpos⟩
      show e.uses - 1 = pinCount (insertRowSorted inner0 ⟨r.1, entry.id, j⟩) e.id
      have h1 := (huses e hmem).1
      rw [insertRowSorted_eq_insByLe, pinCount_insByLe,
        if_neg (fun hh => hfresh e hmem hh.symm)]
      rw [h1, hpin e.id, if_pos hpid_eq.symm]
      omega
  · show ({ entry with uses := entry.uses + 1 } : RecordBatchEntry K V).uses
      = pinCount (insertRowSorted inner0 ⟨r.1, entry.id, j⟩)
        ({ entry with uses := entry.uses + 1 } : RecordBatchEntry K V).id
    show entry.uses + 1 = pinCount (insertRowSorted inner0 ⟨r.1, entry.id, j⟩) entry.id
    rw [insertRowSorted_eq_insByLe, pinCount_insByLe, if_pos rfl,
      hue, hpin entry.id, if_neg hdiff]
  · intro e' hmem'
    rcases mem_unuse h.store prev.batch_id e' hmem' with ⟨e, hmem, hcase⟩
    have hid_eq : e'.id = e.id := by
      rcases hcase with ⟨_, rfl⟩ | ⟨_, heq', _⟩
      · rfl
      · subst heq'; rfl
    show e'.id < (h.store.unuse prev.batch_id).next_id
    have hnext : (h.store.unuse prev.batch_id).next_id = h.store.next_id := rfl
    rw [hnext, hid_eq]
    exact hidslt e hmem
  · intro e' hmem'
    rcases mem_unuse h.store prev.batch_id e' hmem' with ⟨e, hmem, hcase⟩
    have hid_eq : e'.id = e.id := by
      rcases hcase with ⟨_, rfl⟩ | ⟨_, heq', _⟩
      · rfl
      · subst heq'; rfl
    show e'.id ≠ ({ entry with uses := entry.uses + 1 } : RecordBatchEntry K V).id
    rw [hid_eq]
    exact hfresh e hmem
  · exact List.Nodup.sublist (unuse_ids_sublist h.store prev.batch_id) hnodup

/-- One row of the `insert_batch` loop preserves the in-batch
invariant, advancing the processed rows by the row just seen. -/
theorem stepRow_preserves (k : Nat) (hk0 : 0 < k) (P b : List (K × V))
    (t : TopK K V) (entry : RecordBatchEntry K V) (j : Nat) (r : K × V)
    (hinv : MidInv k P b t.heap entry) (hj : b[j]? = some r) :
    MidInv k (P ++ [r]) b (TopK.stepRow (t, entry) j r).1.heap
      (TopK.stepRow (t, entry) j r).2 := by
  obtain ⟨k', rfl⟩ : ∃ k'', k = k'' + 1 := ⟨k - 1, by omega⟩
  cases hkl : t.heap.k_largest with
  | some largest =>
      obtain ⟨hge, hlast⟩ := k_largest_some_facts t.heap largest hkl
      have hfull : t.heap.inner.length = k' + 1 := by
        have hle2 : t.heap.inner.length ≤ k' + 1 := by
          rw [hinv.len]; exact min_le_right _ _
        rw [hinv.hk] at hge
        omega
      by_cases hle : largest.row ≤ r.1
      · -- row skipped: the first k rows of the stable sort are unchanged
        have hstep : TopK.stepRow (t, entry) j r = (t, entry) := by
          simp [TopK.stepRow, hkl, hle]
        rw [hstep]
        obtain ⟨m, _, hmL, hprow, _, _, hP⟩ :=
          midInv_full_split k' P b t.heap entry largest hinv hlast hfull
        have htake : (sortStable (P ++ [r])).take (k' + 1)
            = (sortStable P).take (k' + 1) := by
          rw [sortStable_append_singleton, insStable_eq_insByLe]
          exact insByLe_take_of_le Prod.fst r m (sortStable P) k'
            (sortStable_pairwise P) hmL (hprow ▸ hle)
        refine ⟨hinv.hk, hinv.sorted, ?_, ?_, hinv.uses_store, hinv.uses_entry,
          hinv.entry_batch, hinv.ids_lt, hinv.entry_lt, hinv.fresh, hinv.ids_nodup⟩
        · rw [List.length_append]
          simp only [List.length_cons, List.length_nil]
          rw [min_eq_right (by omega), hfull]
        · rw [htake]
          exact hinv.resEq
      · have hlt : r.1 < largest.row := not_le.mp hle
        by_cases hsame : largest.batch_id = entry.id
        · have hadd := add_full_same t.heap entry r.1 j largest
            (by rw [hinv.hk]; exact hfull) hlast hsame
          have hstep : TopK.stepRow (t, entry) j r
              = ({ t with
                    heap := { t.heap with
                      inner := insertRowSorted t.heap.inner.dropLast ⟨r.1, entry.id, j⟩ },
                    row_replacements := t.row_replacements + 1 }, entry) := by
            simp [TopK.stepRow, hkl, hle, hadd]
          rw [hstep]
          exact midInv_add_full_same k' P b t.heap entry largest j r hinv hj hlast
            hfull hlt hsame
        · have hadd := add_full_other t.heap entry r.1 j largest
            (by rw [hinv.hk]; exact hfull) hlast hsame
          have hstep : TopK.stepRow (t, entry) j r
              = ({ t with
                    heap := { t.heap with
                      inner := insertRowSorted t.heap.inner.dropLast ⟨r.1, entry.id, j⟩,
                      store := t.heap.store.unuse largest.batch_id },
                    row_replacements := t.row_replacements + 1 },
                  { entry with uses := entry.uses + 1 }) := by
            simp [TopK.stepRow, hkl, hle, hadd]
          rw [hstep]
          exact midInv_add_full_other k' P b t.heap entry largest j r hinv hj hlast
            hfull hlt hsame
  | none =>
      have hlt : t.heap.inner.length < k' + 1 := by
        have hh := k_largest_none_lt t.heap (by rw [hinv.hk]; omega) hkl
        rwa [hinv.hk] at hh
      have hne : ¬ t.heap.inner.length = t.heap.k := by rw [hinv.hk]; omega
      have hadd := add_not_full t.heap entry r.1 j hne
      have hstep : TopK.stepRow (t, entry) j r
          = ({ t with
                heap := { t.heap with
                  inner := insertRowSorted t.heap.inner ⟨r.1, entry.id, j⟩ },
                row_replacements := t.row_replacements + 1 },
              { entry with uses := entry.uses + 1 }) := by
        simp [TopK.stepRow, hkl, hadd]
      rw [hstep]
      exact midInv_add_notfull (k' + 1) P b t.heap entry j r hinv hj hlt

/-- The in-batch loop of `insert_batch` (fold of `stepRow` over the
enumerated rows) carries the invariant to the end of the batch. -/
theorem loop_preserves (k : Nat) (hk0 : 0 < k) (P0 b : List (K × V)) :
    ∀ (rest : List (K × V)) (j : Nat) (t : TopK K V) (entry : RecordBatchEntry K V),
      b.drop j = rest →
      MidInv k (P0 ++ b.take j) b t.heap entry →
      MidInv k (P0 ++ b) b
        ((rest.enumFrom j).foldl (fun st p => TopK.stepRow st p.1 p.2) (t, entry)).1.heap
        ((rest.enumFrom j).foldl (fun st p => TopK.stepRow st p.1 p.2) (t, entry)).2 := by
  intro rest
  induction rest with
  | nil =>
      intro j t entry hdrop hinv
      have hble : b.length ≤ j := by
        have hh := congrArg List.length hdrop
        simp only [List.length_drop, List.length_nil] at hh
        omega
      have htk : b.take j = b := List.take_of_length_le hble
      rw [htk] at hinv
      simpa using hinv
  | cons r rest ih =>
      intro j t entry hdrop hinv
      have hj : b[j]? = some r := by
        have hh := congrArg (fun l => l[0]?) hdrop
        simp only [List.getElem?_drop] at hh
        simpa using hh
      have htake : b.take (j + 1) = b.take j ++ [r] := by
        rw [List.take_succ, hj]
        rfl
      have hdrop' : b.drop (j + 1) = rest := by
        have hh := congrArg List.tail hdrop
        rwa [List.tail_drop] at hh
      have hstep := stepRow_preserves k hk0 (P0 ++ b.take j) b t entry j r hinv hj
      rw [List.append_assoc, ← htake] at hstep
      have hrec := ih (j + 1) (TopK.stepRow (t, entry) j r).1
        (TopK.stepRow (t, entry) j r).2 hdrop' hstep
      simpa using hrec

/-- `insert_batch` preserves the between-batches invariant. -/
theorem insert_batch_preserves (k : Nat) (hk0 : 0 < k) (P : List (K × V))
    (t : TopK K V) (b : List (K × V)) (hinv : HeapInv k P t.heap) :
    HeapInv k (P ++ b) (t.insert_batch b).heap := by
  have h1 := midInv_register k P t.heap b hinv
  have h2 := loop_preserves k hk0 P b b 0
    { t with heap := { t.heap with store := (t.heap.store.register b).1 } }
    (t.heap.store.register b).2 rfl (by simpa using h1)
  have h3 := heapInv_insertEntry k (P ++ b) b _ _ h2
  exact h3

/-- `insertBatches` establishes the invariant for the concatenation of
all input rows. -/
theorem insertBatches_preserves (k : Nat) (hk0 : 0 < k) :
    ∀ (batches : List (List (K × V))) (P : List (K × V)) (t : TopK K V),
      HeapInv k P t.heap →
      HeapInv k (P ++ batches.flatten) (t.insertBatches batches).heap := by
  intro batches
  induction batches with
  | nil =>
      intro P t hinv
      simpa [TopK.insertBatches] using hinv
  | cons b bs ih =>
      intro P t hinv
      have h1 := insert_batch_preserves k hk0 P t b hinv
      have h2 := ih (P ++ b) (t.insert_batch b) h1
      rw [List.flatten_cons, ← List.append_assoc]
      exact h2

theorem heapInv_run (k bs : Nat) (hk0 : 0 < k) (batches : List (List (K × V))) :
    HeapInv k batches.flatten
      ((TopK.init (K := K) (V := V) k bs).insertBatches batches).heap := by
  have := insertBatches_preserves k hk0 batches []
    (TopK.init k bs) (heapInv_init k)
  simpa using this

theorem chunkRowsAux_flatten {α : Type} (bs : Nat) :
    ∀ (fuel : Nat) (l : List α), (chunkRowsAux bs fuel l).flatten = l := by
  intro fuel
  induction fuel with
  | zero => intro l; simp [chunkRowsAux]
  | succ f ih =>
      intro l
      unfold chunkRowsAux
      by_cases hlt : l.length < bs
      · simp [hlt]
      · rw [if_neg hlt]
        rw [List.flatten_cons, ih]
        exact List.take_append_drop bs l

theorem chunkRows_flatten {α : Type} (bs : Nat) (l : List α) :
    (chunkRows bs l).flatten = l := by
  unfold chunkRows
  by_cases hbs : bs = 0
  · simp [hbs]
  · rw [if_neg hbs, chunkRowsAux_flatten]

theorem heapInv_emit (k : Nat) (P : List (K × V)) (h : TopKHeap K V)
    (hinv : HeapInv k P h) :
    h.emit = ((sortStable P).take k).map some := by
  have hfst := congrArg (List.map Prod.fst) hinv.resEq
  rw [List.map_map, List.map_map] at hfst
  rw [emit_eq_map_resolveStore]
  exact hfst

/-- C1: after inserting any sequence of batches, the rows produced by
`TopK::emit` (the concatenation of its output chunks) are exactly the
first `k` rows of the stable sort of all input rows by encoded key, in
ascending key order; ties go to the earlier-inserted row, and when
fewer than `k` rows were seen all of them are emitted, sorted. -/
theorem topk_emit_stable_sort (k bs : Nat) (hk0 : 0 < k)
    (batches : List (List (K × V))) :
    ((TopK.init (K := K) (V := V) k bs).insertBatches batches).emit.flatten
      = ((sortStable batches.flatten).take k).map some := by
  have hinv := heapInv_run k bs hk0 batches
  show (chunkRows _ _).flatten = _
  rw [chunkRows_flatten]
  exact heapInv_emit k batches.flatten _ hinv

theorem topk_emit_stable_sort_witness :
    0 < 3 ∧
    ((TopK.init (K := Nat) (V := Nat) 3 2).insertBatches
        [[(4, 1), (0, 2)], [(6, 3), (0, 4), (2, 5)], [(8, 6)]]).emit.flatten
      = ((sortStable ([[(4, 1), (0, 2)], [(6, 3), (0, 4), (2, 5)], [(8, 6)]]
          : List (List (Nat × Nat))).flatten).take 3).map some :=
  ⟨by decide, topk_emit_stable_sort 3 2 (by decide) _⟩

theorem find?_unuse_list_remove (pid : Nat) (e : RecordBatchEntry K V)
    (h1 : e.uses = 1) :
    ∀ l : List (RecordBatchEntry K V), (l.map RecordBatchEntry.id).Nodup →
      l.find? (fun x => decide (x.id = pid)) = some e →
      ((l.map (fun x => if x.id = pid then { x with uses := x.uses - 1 } else x)).filter
          (fun x => decide (x.id ≠ pid) || decide (0 < x.uses))).find?
            (fun x => decide (x.id = pid)) = none := by
  intro l
  induction l with
  | nil => intro _ hget; simp at hget
  | cons x rest ih =>
      intro hnodup hget
      simp only [List.map_cons, List.nodup_cons] at hnodup
      obtain ⟨hxnot, hrestnodup⟩ := hnodup
      simp only [List.map_cons, List.filter_cons]
      by_cases hx : x.id = pid
      · rw [List.find?_cons_of_pos _ (by simpa using hx)] at hget
        cases hget
        rw [if_pos hx, if_neg (by simp [hx, h1])]
        rw [List.find?_eq_none]
        intro y hy
        rcases List.mem_filter.mp hy with ⟨hy2, _⟩
        rcases List.mem_map.mp hy2 with ⟨z, hz, hzy⟩
        have hzid : y.id = z.id := by
          by_cases hzp : z.id = pid
          · rw [if_pos hzp] at hzy
            rw [← hzy]
          · rw [if_neg hzp] at hzy
            rw [← hzy]
        have hzne : z.id ≠ pid := by
          intro hzp
          exact hxnot (hx ▸ hzp ▸ List.mem_map_of_mem RecordBatchEntry.id hz)
        simp [hzid, hzne]
      · rw [List.find?_cons_of_neg _ (by simpa using hx)] at hget
        rw [if_neg hx, if_pos (by simp [hx]),
          List.find?_cons_of_neg _ (by simpa using hx)]
        exact ih hrestnodup hget

/-- On a store with distinct ids, `unuse` removes the batch exactly when
its use count was 1 (its last pinning row was evicted). -/
theorem unuse_removes_iff (s : RecordBatchStore K V) (id : Nat)
    (e : RecordBatchEntry K V)
    (hnodup : (s.batches.map RecordBatchEntry.id).Nodup)
    (hget : s.get id = some e) (hpos : 1 ≤ e.uses) :
    ((s.unuse id).get id = none ↔ e.uses = 1) := by
  constructor
  · intro hnone
    by_contra hne
    have h2 : 2 ≤ e.uses := by omega
    rw [get_unuse_self s id e hget h2] at hnone
    simp at hnone
  · intro h1
    simp only [RecordBatchStore.unuse, RecordBatchStore.get] at hget ⊢
    exact find?_unuse_list_remove id e h1 s.batches hnodup hget

/-- C4: heap/store invariants of the Top-K operator.  After any sequence
of `insert_batch` calls the heap holds at most `k` rows in ascending
encoded-key order, and every heap row resolves to a batch retained in
the store whose use count is positive and equals the number of heap
rows pinning it.  A row is skipped by `stepRow` exactly when the heap
holds `k` rows whose maximum key is `≤` the candidate's key, and a
stored batch is removed by `unuse` exactly when its last pinning row is
evicted. -/
theorem topk_heap_store_invariants (k bs : Nat) (hk0 : 0 < k)
    (batches : List (List (K × V))) :
    (((TopK.init (K := K) (V := V) k bs).insertBatches batches).heap.inner.length ≤ k ∧
     ((TopK.init (K := K) (V := V) k bs).insertBatches
        batches).heap.inner.Pairwise (fun a b => a.row ≤ b.row) ∧
     (∀ tr ∈ ((TopK.init (K := K) (V := V) k bs).insertBatches batches).heap.inner,
        ∃ e, ((TopK.init (K := K) (V := V) k bs).insertBatches
            batches).heap.store.get tr.batch_id = some e ∧
          1 ≤ e.uses ∧
          e.uses = pinCount ((TopK.init (K := K) (V := V) k bs).insertBatches
            batches).heap.inner e.id)) ∧
    (∀ (t' : TopK K V) (entry : RecordBatchEntry K V) (j : Nat) (kv : K × V),
        TopK.stepRow (t', entry) j kv = (t', entry) ↔
          ∃ largest, t'.heap.k_largest = some largest ∧ largest.row ≤ kv.1) ∧
    (∀ (s : RecordBatchStore K V) (id : Nat) (e : RecordBatchEntry K V),
        (s.batches.map RecordBatchEntry.id).Nodup →
        s.get id = some e → 1 ≤ e.uses →
        ((s.unuse id).get id = none ↔ e.uses = 1)) := by
  have hinv := heapInv_run k bs hk0 batches
  refine ⟨⟨?_, hinv.sorted, ?_⟩, ?_, ?_⟩
  · rw [hinv.len]
    exact min_le_right _ _
  · intro tr htr
    rcases forall_mem_of_map_eq hinv.resEq tr htr with ⟨rv, _, hfg⟩
    rw [Prod.mk.injEq] at hfg
    have hsome : resolveStore _ tr = some rv := hfg.1
    unfold resolveStore at hsome
    cases hget : (((TopK.init (K := K) (V := V) k bs).insertBatches
        batches)).heap.store.get tr.batch_id with
    | none => rw [hget] at hsome; simp at hsome
    | some e =>
        rcases get_mem_and_id _ _ _ hget with ⟨hmem, _⟩
        obtain ⟨h1, h2⟩ := hinv.uses_store e hmem
        exact ⟨e, rfl, by omega, h1⟩
  · intro t' entry j kv
    constructor
    · intro heq
      cases hkl : t'.heap.k_largest with
      | none =>
          exfalso
          have h1 : (TopK.stepRow (t', entry) j kv).1.row_replacements
              = t'.row_replacements + 1 := by
            simp [TopK.stepRow, hkl]
          rw [heq] at h1
          simp at h1
      | some largest =>
          by_cases hle : largest.row ≤ kv.1
          · exact ⟨largest, rfl, hle⟩
          · exfalso
            have h1 : (TopK.stepRow (t', entry) j kv).1.row_replacements
                = t'.row_replacements + 1 := by
              simp [TopK.stepRow, hkl, hle]
            rw [heq] at h1
            simp at h1
    · rintro ⟨largest, hkl, hle⟩
      simp [TopK.stepRow, hkl, hle]
  · intro s id e hnodup hget hpos
    exact unuse_removes_iff s id e hnodup hget hpos

theorem topk_heap_store_invariants_witness :
    0 < 2 ∧
    ((TopK.init (K := Nat) (V := Nat) 2 10).insertBatches
        [[(3, 0), (1, 1), (2, 2)]]).heap.inner.length ≤ 2 :=
  ⟨by decide,
    (topk_heap_store_invariants 2 10 (by decide) [[(3, 0), (1, 1), (2, 2)]]).1.1⟩

/-- C10: `TopKHeap::new` (reached through `TopK::try_new`) asserts
`k > 0`: constructing the heap with `k = 0` panics (modelled as `none`)
rather than returning an error or an empty operator, and for every
`k ≥ 1` it yields an empty heap whose capacity bound is `k`. -/
theorem topk_heap_new_assert {K V : Type} (k : Nat) :
    TopKHeap.new (K := K) (V := V) 0 = none ∧
    (0 < k → TopKHeap.new (K := K) (V := V) k
      = some { k := k, inner := [], store := RecordBatchStore.new }) := by
  constructor
  · simp [TopKHeap.new]
  · intro hk
    simp [TopKHeap.new, hk, TopKHeap.empty]

theorem topk_heap_new_assert_witness :
    TopKHeap.new (K := Nat) (V := Nat) 0 = none ∧
    TopKHeap.new (K := Nat) (V := Nat) 3
      = some { k := 3, inner := [], store := RecordBatchStore.new } :=
  ⟨(topk_heap_new_assert 3).1, (topk_heap_new_assert 3).2 (by decide)⟩

/-! ### The `row_replacements` metric

The specification counts only insertions that evicted a prior entry;
`evictingAdds` replays the insertion decisions of the operator and
counts exactly those.  The metric in the code increments on *every*
heap insertion, so it equals the evicting insertions plus the number of
heap-filling insertions, which is the final heap size. -/

/-- One loop step of `insert_batch`, additionally counting the
insertions performed while the heap already held `k` rows (the
specification's "row replacements"). -/
def evictingStep (st : (TopK K V × RecordBatchEntry K V) × Nat) (index : Nat)
    (kv : K × V) : (TopK K V × RecordBatchEntry K V) × Nat :=
  let c :=
    match st.1.1.heap.k_largest with
    | some largest =>
        if largest.row ≤ kv.1 then st.2
        else st.2 + (if st.1.1.heap.inner.length = st.1.1.heap.k then 1 else 0)
    | none => st.2 + (if st.1.1.heap.inner.length = st.1.1.heap.k then 1 else 0)
  (TopK.stepRow st.1 index kv, c)

def evictingInsertBatch (tc : TopK K V × Nat) (batch : List (K × V)) :
    TopK K V × Nat :=
  let (store1, entry) := tc.1.heap.store.register batch
  let t1 : TopK K V := { tc.1 with heap := { tc.1.heap with store := store1 } }
  let res := batch.enum.foldl (fun st p => evictingStep st p.1 p.2) ((t1, entry), tc.2)
  ({ res.1.1 with heap := { res.1.1.heap with
      store := res.1.1.heap.store.insertEntry res.1.2 } }, res.2)

/-- Number of evicting heap insertions over a whole run. -/
def evictingAdds (k bs : Nat) (batches : List (List (K × V))) : Nat :=
  (batches.foldl evictingInsertBatch (TopK.init k bs, 0)).2

/-- The metric/counter relation for one loop step: the metric always
rises with the heap insertion, the eviction counter only when the heap
was full, and the heap length makes up the difference. -/
theorem evictingStep_rel (t : TopK K V) (entry : RecordBatchEntry K V)
    (c j : Nat) (kv : K × V)
    (hk0 : 0 < t.heap.k) (hlen : t.heap.inner.length ≤ t.heap.k)
    (hrel : t.row_replacements = c + t.heap.inner.length) :
    (TopK.stepRow (t, entry) j kv).1.row_replacements
        = (evictingStep ((t, entry), c) j kv).2
          + (TopK.stepRow (t, entry) j kv).1.heap.inner.length ∧
      (TopK.stepRow (t, entry) j kv).1.heap.inner.length
        ≤ (TopK.stepRow (t, entry) j kv).1.heap.k ∧
      0 < (TopK.stepRow (t, entry) j kv).1.heap.k := by
  cases hkl : t.heap.k_largest with
  | some largest =>
      obtain ⟨hge, hlast⟩ := k_largest_some_facts t.heap largest hkl
      have hfull : t.heap.inner.length = t.heap.k := by omega
      by_cases hle : largest.row ≤ kv.1
      · have hstep : TopK.stepRow (t, entry) j kv = (t, entry) := by
          simp [TopK.stepRow, hkl, hle]
        have hc : (evictingStep ((t, entry), c) j kv).2 = c := by
          simp [evictingStep, hkl, hle]
        rw [hstep, hc]
        exact ⟨hrel, hlen, hk0⟩
      · have hc : (evictingStep ((t, entry), c) j kv).2 = c + 1 := by
          simp [evictingStep, hkl, hle, hfull]
        rw [hc]
        obtain ⟨prev, hprev⟩ : ∃ prev, t.heap.inner.getLast? = some prev :=
          ⟨largest, hlast⟩
        obtain ⟨inner0, hsplit⟩ := List.getLast?_eq_some_iff.mp hprev
        have hlen0 : t.heap.inner.dropLast.length = t.heap.inner.length - 1 := by
          rw [List.length_dropLast]
        by_cases hs : prev.batch_id = entry.id
        · have hadd := add_full_same t.heap entry kv.1 j prev hfull hprev hs
          have hstep : TopK.stepRow (t, entry) j kv
              = ({ t with
                    heap := { t.heap with
                      inner := insertRowSorted t.heap.inner.dropLast ⟨kv.1, entry.id, j⟩ },
                    row_replacements := t.row_replacements + 1 }, entry) := by
            simp [TopK.stepRow, hkl, hle, hadd]
          rw [hstep]
          refine ⟨?_, ?_, hk0⟩
          · show t.row_replacements + 1
              = c + 1 + (insertRowSorted t.heap.inner.dropLast ⟨kv.1, entry.id, j⟩).length
            rw [insertRowSorted_eq_insByLe, length_insByLe, hlen0]
            omega
          · show (insertRowSorted t.heap.inner.dropLast ⟨kv.1, entry.id, j⟩).length
              ≤ t.heap.k
            rw [insertRowSorted_eq_insByLe, length_insByLe, hlen0]
            omega
        · have hadd := add_full_other t.heap entry kv.1 j prev hfull hprev hs
          have hstep : TopK.stepRow (t, entry) j kv
              = ({ t with
                    heap := { t.heap with
                      inner := insertRowSorted t.heap.inner.dropLast ⟨kv.1, entry.id, j⟩,
                      store := t.heap.store.unuse prev.batch_id },
                    row_replacements := t.row_replacements + 1 },
                  { entry with uses := entry.uses + 1 }) := by
            simp [TopK.stepRow, hkl, hle, hadd]
          rw [hstep]
          refine ⟨?_, ?_, hk0⟩
          · show t.row_replacements + 1
              = c + 1 + (insertRowSorted t.heap.inner.dropLast ⟨kv.1, entry.id, j⟩).length
            rw [insertRowSorted_eq_insByLe, length_insByLe, hlen0]
            omega
          · show (insertRowSorted t.heap.inner.dropLast ⟨kv.1, entry.id, j⟩).length
              ≤ t.heap.k
            rw [insertRowSorted_eq_insByLe, length_insByLe, hlen0]
            omega
  | none =>
      have hlt := k_largest_none_lt t.heap hk0 hkl
      have hne : ¬ t.heap.inner.length = t.heap.k := by omega
      have hadd := add_not_full t.heap entry kv.1 j hne
      have hstep : TopK.stepRow (t, entry) j kv
          = ({ t with
                heap := { t.heap with
                  inner := insertRowSorted t.heap.inner ⟨kv.1, entry.id, j⟩ },
                row_replacements := t.row_replacements + 1 },
              { entry with uses := entry.uses + 1 }) := by
        simp [TopK.stepRow, hkl, hadd]
      have hc : (evictingStep ((t, entry), c) j kv).2 = c := by
        simp [evictingStep, hkl, hne]
      rw [hstep, hc]
      refine ⟨?_, ?_, hk0⟩
      · show t.row_replacements + 1
          = c + (insertRowSorted t.heap.inner ⟨kv.1, entry.id, j⟩).length
        rw [insertRowSorted_eq_insByLe, length_insByLe]
        omega
      · show (insertRowSorted t.heap.inner ⟨kv.1, entry.id, j⟩).length ≤ t.heap.k
        rw [insertRowSorted_eq_insByLe, length_insByLe]
        omega

theorem evicting_loop (ps : List (Nat × (K × V))) :
    ∀ (t : TopK K V) (entry : RecordBatchEntry K V) (c : Nat),
      0 < t.heap.k → t.heap.inner.length ≤ t.heap.k →
      t.row_replacements = c + t.heap.inner.length →
      (ps.foldl (fun st p => evictingStep st p.1 p.2) ((t, entry), c)).1
          = ps.foldl (fun st p => TopK.stepRow st p.1 p.2) (t, entry) ∧
      (ps.foldl (fun st p => evictingStep st p.1 p.2) ((t, entry), c)).1.1.row_replacements
          = (ps.foldl (fun st p => evictingStep st p.1 p.2) ((t, entry), c)).2
            + (ps.foldl (fun st p =>
                evictingStep st p.1 p.2) ((t, entry), c)).1.1.heap.inner.length ∧
      (ps.foldl (fun st p => evictingStep st p.1 p.2) ((t, entry), c)).1.1.heap.inner.length
          ≤ (ps.foldl (fun st p => evictingStep st p.1 p.2) ((t, entry), c)).1.1.heap.k ∧
      0 < (ps.foldl (fun st p => evictingStep st p.1 p.2) ((t, entry), c)).1.1.heap.k := by
  induction ps with
  | nil =>
      intro t entry c hk0 hlen hrel
      exact ⟨rfl, hrel, hlen, hk0⟩
  | cons p ps ih =>
      intro t entry c hk0 hlen hrel
      obtain ⟨h1, h2, h3⟩ := evictingStep_rel t entry c p.1 p.2 hk0 hlen hrel
      have hrec := ih (TopK.stepRow (t, entry) p.1 p.2).1
        (TopK.stepRow (t, entry) p.1 p.2).2
        (evictingStep ((t, entry), c) p.1 p.2).2 h3 h2 h1
      simp only [List.foldl_cons]
      exact hrec

theorem evicting_insert_batch (tc : TopK K V × Nat) (b : List (K × V))
    (hk0 : 0 < tc.1.heap.k) (hlen : tc.1.heap.inner.length ≤ tc.1.heap.k)
    (hrel : tc.1.row_replacements = tc.2 + tc.1.heap.inner.length) :
    (evictingInsertBatch tc b).1 = tc.1.insert_batch b ∧
    (evictingInsertBatch tc b).1.row_replacements
      = (evictingInsertBatch tc b).2
        + (evictingInsertBatch tc b).1.heap.inner.length ∧
    (evictingInsertBatch tc b).1.heap.inner.length
      ≤ (evictingInsertBatch tc b).1.heap.k ∧
    0 < (evictingInsertBatch tc b).1.heap.k := by
  have hloop := evicting_loop (b.enum)
    { tc.1 with heap := { tc.1.heap with store := (tc.1.heap.store.register b).1 } }
    (tc.1.heap.store.register b).2 tc.2 hk0 hlen hrel
  obtain ⟨he, hr, hl, hk⟩ := hloop
  refine ⟨?_, ?_, ?_, ?_⟩
  · show ({ (b.enum.foldl (fun st p => evictingStep st p.1 p.2)
        (({ tc.1 with heap := { tc.1.heap with store := (tc.1.heap.store.register b).1 } },
          (tc.1.heap.store.register b).2), tc.2)).1.1 with
      heap := { (b.enum.foldl (fun st p => evictingStep st p.1 p.2)
        (({ tc.1 with heap := { tc.1.heap with store := (tc.1.heap.store.register b).1 } },
          (tc.1.heap.store.register b).2), tc.2)).1.1.heap with
        store := (b.enum.foldl (fun st p => evictingStep st p.1 p.2)
        (({ tc.1 with heap := { tc.1.heap with store := (tc.1.heap.store.register b).1 } },
          (tc.1.heap.store.register b).2), tc.2)).1.1.heap.store.insertEntry
          (b.enum.foldl (fun st p => evictingStep st p.1 p.2)
        (({ tc.1 with heap := { tc.1.heap with store := (tc.1.heap.store.register b).1 } },
          (tc.1.heap.store.register b).2), tc.2)).1.2 } } : TopK K V)
      = tc.1.insert_batch b
    rw [he]
    rfl
  · show (evictingInsertBatch tc b).1.row_replacements
      = (evictingInsertBatch tc b).2 + (evictingInsertBatch tc b).1.heap.inner.length
    exact hr
  · exact hl
  · exact hk

theorem evicting_run (batches : List (List (K × V))) :
    ∀ (t : TopK K V) (c : Nat),
      0 < t.heap.k → t.heap.inner.length ≤ t.heap.k →
      t.row_replacements = c + t.heap.inner.length →
      (batches.foldl evictingInsertBatch (t, c)).1 = t.insertBatches batches ∧
      (batches.foldl evictingInsertBatch (t, c)).1.row_replacements
        = (batches.foldl evictingInsertBatch (t, c)).2
          + (batches.foldl evictingInsertBatch (t, c)).1.heap.inner.length := by
  induction batches with
  | nil =>
      intro t c hk0 hlen hrel
      exact ⟨rfl, hrel⟩
  | cons b bs ih =>
      intro t c hk0 hlen hrel
      obtain ⟨he, hr, hl, hk⟩ := evicting_insert_batch (t, c) b hk0 hlen hrel
      have hrec := ih (evictingInsertBatch (t, c) b).1
        (evictingInsertBatch (t, c) b).2 hk hl hr
      simp only [List.foldl_cons, TopK.insertBatches, List.foldl_cons]
      rw [← he]
      constructor
      · exact hrec.1
      · exact hrec.2

/-- C5 (amended): the `row_replacements` metric counts *every* heap
insertion, not only the evicting ones: after a run it equals the number
of insertions that evicted a prior entry (`evictingAdds`) plus the
number of heap-filling insertions, which is the final heap size. -/
theorem row_replacements_counts_all_inserts (k bs : Nat) (hk0 : 0 < k)
    (batches : List (List (K × V))) :
    ((TopK.init (K := K) (V := V) k bs).insertBatches batches).row_replacements
      = evictingAdds k bs batches
        + ((TopK.init (K := K) (V := V) k bs).insertBatches
            batches).heap.inner.length := by
  have hrun := evicting_run batches (TopK.init (K := K) (V := V) k bs) 0
    (by simpa [TopK.init, TopKHeap.empty] using hk0)
    (by simp [TopK.init, TopKHeap.empty])
    (by simp [TopK.init, TopKHeap.empty])
  unfold evictingAdds
  rw [← hrun.1]
  exact hrun.2

theorem row_replacements_counts_all_inserts_witness :
    0 < 2 ∧
    ((TopK.init (K := Nat) (V := Nat) 2 10).insertBatches [[(5, 0)]]).row_replacements
      = evictingAdds 2 10 [[(5, 0)]]
        + ((TopK.init (K := Nat) (V := Nat) 2 10).insertBatches
            [[(5, 0)]]).heap.inner.length :=
  ⟨by decide, row_replacements_counts_all_inserts 2 10 (by decide) [[(5, 0)]]⟩

/-- Counterexample to C5 as stated: with `k = 2` and a single one-row
batch, the heap was never full, so no insertion evicted a prior entry
(`evictingAdds = 0`), yet the `row_replacements` metric reads 1. -/
theorem row_replacements_cex :
    ((TopK.init (K := Nat) (V := Nat) 2 10).insertBatches [[(5, 0)]]).row_replacements = 1 ∧
    evictingAdds (K := Nat) (V := Nat) 2 10 [[(5, 0)]] = 0 ∧
    ((TopK.init (K := Nat) (V := Nat) 2 10).insertBatches [[(5, 0)]]).row_replacements
      ≠ evictingAdds (K := Nat) (V := Nat) 2 10 [[(5, 0)]] := by
  refine ⟨by decide, by decide, by decide⟩

/-! ## Grouped hash aggregator stream
(`core/src/physical_plan/aggregates/row_hash2.rs`)

`GroupedHashAggregateStream2::poll_next` is a loop over an execution
state.  The model abstracts the group state to `A`, record batches to
`B` and errors to `E`; `absorb` stands for `group_aggregate_batch`
followed by `reservation.try_grow` (returning the error of the failing
one), `finalize` for `create_batch_from_map`.  `Poll::Pending` is not
modelled: `ready!` returns it without touching any state, so the input
is the sequence of items the upstream eventually yields. -/

inductive ExecutionState (B : Type) where
  | ReadingInput
  | ProducingOutput (batch : B)
  | Done
deriving DecidableEq

inductive InputItem (B E : Type) where
  | ok (batch : B)
  | err (e : E)
deriving DecidableEq

instance {E B : Type} [DecidableEq E] [DecidableEq B] : DecidableEq (Except E B) :=
  fun a b =>
    match a, b with
    | .error x, .error y =>
        if h : x = y then isTrue (by rw [h]) else isFalse (by intro hc; cases hc; exact h rfl)
    | .error _, .ok _ => isFalse (by intro hc; cases hc)
    | .ok _, .error _ => isFalse (by intro hc; cases hc)
    | .ok x, .ok y =>
        if h : x = y then isTrue (by rw [h]) else isFalse (by intro hc; cases hc; exact h rfl)

inductive PollOut (B E : Type) where
  | item (r : Except E B)
  | ended
deriving DecidableEq

structure AggModel (B E A : Type) where
  absorb : A → B → A × Option E
  finalize : A → Except E B
  num_rows : B → Nat
  slice : B → Nat → Nat → B
  batch_size : Nat

structure AggStream (B E A : Type) where
  exec_state : ExecutionState B
  input : List (InputItem B E)
  acc : A

variable {B E A : Type}

/-- The `ExecutionState::ProducingOutput` arm of the loop: emit the
batch whole (entering `Done`) or slice off `batch_size` rows. -/
def produceOutput (m : AggModel B E A) (input : List (InputItem B E)) (acc : A)
    (batch : B) : AggStream B E A × PollOut B E :=
  if m.num_rows batch ≤ m.batch_size then
    (⟨.Done, input, acc⟩, .item (.ok batch))
  else
    (⟨.ProducingOutput (m.slice batch m.batch_size (m.num_rows batch - m.batch_size)),
        input, acc⟩,
      .item (.ok (m.slice batch 0 m.batch_size)))

/-- The loop body of `poll_next`, by recursion on the remaining input
(the loop consumes one input item per iteration while absorption
succeeds). -/
def pollNextAux (m : AggModel B E A) :
    List (InputItem B E) → ExecutionState B → A → AggStream B E A × PollOut B E
  | input, .Done, acc => (⟨.Done, input, acc⟩, .ended)
  | input, .ProducingOutput batch, acc => produceOutput m input acc batch
  | [], .ReadingInput, acc =>
      match m.finalize acc with
      | .error e => (⟨.ReadingInput, [], acc⟩, .item (.error e))
      | .ok batch => produceOutput m [] acc batch
  | item :: rest, .ReadingInput, acc =>
      match item with
      | .err e => (⟨.ReadingInput, rest, acc⟩, .item (.error e))
      | .ok batch =>
          match m.absorb acc batch with
          | (a', some e) => (⟨.ReadingInput, rest, a'⟩, .item (.error e))
          | (a', none) => pollNextAux m rest .ReadingInput a'

def pollNext (m : AggModel B E A) (s : AggStream B E A) :
    AggStream B E A × PollOut B E :=
  pollNextAux m s.input s.exec_state s.acc

theorem pollNextAux_error_state (m : AggModel B E A) :
    ∀ (input : List (InputItem B E)) (st : ExecutionState B) (acc : A) (e : E),
      (pollNextAux m input st acc).2 = .item (.error e) →
      st = .ReadingInput ∧ (pollNextAux m input st acc).1.exec_state = .ReadingInput := by
  intro input
  induction input with
  | nil =>
      intro st acc e h
      cases st with
      | Done => simp [pollNextAux] at h
      | ProducingOutput batch =>
          exfalso
          simp only [pollNextAux, produceOutput] at h
          by_cases hle : m.num_rows batch ≤ m.batch_size <;> simp [hle] at h
      | ReadingInput =>
          refine ⟨rfl, ?_⟩
          cases hf : m.finalize acc with
          | error e' => simp [pollNextAux, hf]
          | ok batch =>
              exfalso
              simp only [pollNextAux, hf, produceOutput] at h
              by_cases hle : m.num_rows batch ≤ m.batch_size <;> simp [hle] at h
  | cons item rest ih =>
      intro st acc e h
      cases st with
      | Done => simp [pollNextAux] at h
      | ProducingOutput batch =>
          exfalso
          simp only [pollNextAux, produceOutput] at h
          by_cases hle : m.num_rows batch ≤ m.batch_size <;> simp [hle] at h
      | ReadingInput =>
          refine ⟨rfl, ?_⟩
          cases item with
          | err e' => simp [pollNextAux]
          | ok batch =>
              cases habs : m.absorb acc batch with
              | mk a' oe =>
                  cases oe with
                  | some e' => simp [pollNextAux, habs]
                  | none =>
                      simp only [pollNextAux, habs] at h ⊢
                      exact (ih .ReadingInput a' e h).2

theorem pollNextAux_ended_iff (m : AggModel B E A) :
    ∀ (input : List (InputItem B E)) (st : ExecutionState B) (acc : A),
      (pollNextAux m input st acc).2 = .ended ↔ st = .Done := by
  intro input
  induction input with
  | nil =>
      intro st acc
      cases st with
      | Done => simp [pollNextAux]
      | ProducingOutput batch =>
          by_cases hle : m.num_rows batch ≤ m.batch_size <;>
            simp [pollNextAux, produceOutput, hle]
      | ReadingInput =>
          cases hf : m.finalize acc with
          | error e' => simp [pollNextAux, hf]
          | ok batch =>
              by_cases hle : m.num_rows batch ≤ m.batch_size <;>
                simp [pollNextAux, produceOutput, hf, hle]
  | cons item rest ih =>
      intro st acc
      cases st with
      | Done => simp [pollNextAux]
      | ProducingOutput batch =>
          by_cases hle : m.num_rows batch ≤ m.batch_size <;>
            simp [pollNextAux, produceOutput, hle]
      | ReadingInput =>
          cases item with
          | err e' => simp [pollNextAux]
          | ok batch =>
              cases habs : m.absorb acc batch with
              | mk a' oe =>
                  cases oe with
                  | some e' => simp [pollNextAux, habs]
                  | none =>
                      simp only [pollNextAux, habs]
                      rw [ih .ReadingInput a']

/-- C2 (amended): an error return from `poll_next` leaves the execution
state in `ReadingInput` (it does not terminate the stream), and
end-of-stream is returned exactly from the `Done` state, which is
entered only after the final output batch has been emitted.  So after a
memory-grow failure the next poll resumes consuming input instead of
returning end-of-stream. -/
theorem agg_poll_error_not_terminal (m : AggModel B E A) (s : AggStream B E A) :
    (∀ e : E, (pollNext m s).2 = .item (.error e) →
      s.exec_state = .ReadingInput ∧ (pollNext m s).1.exec_state = .ReadingInput) ∧
    ((pollNext m s).2 = .ended ↔ s.exec_state = .Done) := by
  constructor
  · intro e h
    exact pollNextAux_error_state m s.input s.exec_state s.acc e h
  · exact pollNextAux_ended_iff m s.input s.exec_state s.acc

/-- A concrete aggregator model whose memory-grow always fails while
absorbing a batch: batches are row counts, group state and errors are
trivial, `finalize` emits an empty result batch. -/
def aggCexModel : AggModel Nat Unit Unit :=
  { absorb := fun _ _ => ((), some ())
    finalize := fun _ => .ok 0
    num_rows := fun b => b
    slice := fun _ _ len => len
    batch_size := 8 }

def aggCexStream : AggStream Nat Unit Unit := ⟨.ReadingInput, [.ok 1], ()⟩

/-- C2 counterexample: with a one-batch input whose absorption fails the
memory grow, the first `poll_next` returns the error, but the next poll
does NOT return end-of-stream — it finalizes the groups and returns an
`Ok` output batch, contradicting the claim that an error terminates the
stream at the next poll. -/
theorem agg_poll_after_error_cex :
    (pollNext aggCexModel aggCexStream).2 = .item (.error ()) ∧
    (pollNext aggCexModel (pollNext aggCexModel aggCexStream).1).2 ≠ .ended ∧
    (pollNext aggCexModel (pollNext aggCexModel aggCexStream).1).2 = .item (.ok 0) := by
  refine ⟨by decide, by decide, by decide⟩

theorem agg_poll_error_not_terminal_witness :
    aggCexStream.exec_state = ExecutionState.ReadingInput ∧
    (pollNext aggCexModel aggCexStream).1.exec_state = ExecutionState.ReadingInput :=
  (agg_poll_error_not_terminal aggCexModel aggCexStream).1 () (by decide)

/-! ## Sort-preserving merge
(`physical-plan/src/sorts/sort_preserving_merge.rs`)

`SortPreservingMergeExec::execute` dispatches on the requested
partition and the number of input partitions.  Streams are abstracted
to a type `S`; errors carry the `internal_err!` message. -/

inductive MergeStream (S : Type) where
  /-- `LimitStream::new(stream, skip, fetch, _)` -/
  | limited (skip : Nat) (fetch : Option Nat) (s : S)
  /-- the single input stream returned unchanged -/
  | passthrough (s : S)
  /-- `streaming_merge` over buffered receivers, with the exec's fetch -/
  | merged (receivers : List (Nat × S)) (fetch : Option Nat)
deriving DecidableEq

/-- `spawn_buffered(stream, buffer)`: a stream driven through a bounded
channel of the given capacity (the capacity is what execute chooses, so
it is kept as data). -/
def spawn_buffered {S : Type} (s : S) (buffer : Nat) : Nat × S := (buffer, s)

structure SortPreservingMergeExec (S : Type) where
  /-- the streams `input.execute(0..n)` would return -/
  partitions : List S
  fetch : Option Nat
deriving DecidableEq

def SortPreservingMergeExec.execute {S : Type} (e : SortPreservingMergeExec S)
    (partition : Nat) : Except String (MergeStream S) :=
  if partition ≠ 0 then
    .error "SortPreservingMergeExec invalid partition"
  else
    match e.partitions with
    | [] => .error "SortPreservingMergeExec requires at least one input partition"
    | [s] =>
        match e.fetch with
        | some fetch => .ok (.limited 0 (some fetch) s)
        | none => .ok (.passthrough s)
    | _ => .ok (.merged (e.partitions.map (fun s => spawn_buffered s 1)) e.fetch)

/-- Modelled from the spec: per output row the streaming merge selects
the stream whose current head key is smallest, breaking ties by lower
stream index (`streaming_merge` itself is outside this tree).  Fold
keeping the best (index, key) pair, replacing it only on a strictly
smaller key. -/
def mergeSelectGo {K : Type} [LinearOrder K] (best : Nat × K) :
    List (Nat × K) → Nat × K
  | [] => best
  | (i, k) :: rest => mergeSelectGo (if k < best.2 then (i, k) else best) rest

/-- Modelled from the spec: index of the winning stream among the
current head keys, `none` when no stream remains. -/
def mergeSelect {K : Type} [LinearOrder K] (heads : List K) : Option Nat :=
  match heads with
  | [] => none
  | h :: t => some (mergeSelectGo (0, h) (t.enumFrom 1)).1

theorem mergeSelectGo_spec {K : Type} [LinearOrder K] (heads : List K) :
    ∀ (d : List K) (n : Nat) (b : Nat × K),
      heads.drop n = d →
      heads[b.1]? = some b.2 →
      b.1 < n →
      (∀ j : Nat, j < n → ∀ k, heads[j]? = some k → b.2 ≤ k) →
      (∀ j : Nat, j < b.1 → ∀ k, heads[j]? = some k → b.2 < k) →
      heads[(mergeSelectGo b (d.enumFrom n)).1]? = some (mergeSelectGo b (d.enumFrom n)).2 ∧
      (∀ (j : Nat) (k : K), heads[j]? = some k → (mergeSelectGo b (d.enumFrom n)).2 ≤ k) ∧
      (∀ j : Nat, j < (mergeSelectGo b (d.enumFrom n)).1 → ∀ k, heads[j]? = some k →
        (mergeSelectGo b (d.enumFrom n)).2 < k) := by
  intro d
  induction d with
  | nil =>
      intro n b hd h1 h2 h3 h4
      have hlen : heads.length ≤ n := by
        by_contra hlt
        push_neg at hlt
        have := List.drop_eq_nil_iff.mp hd
        omega
      refine ⟨h1, ?_, ?_⟩
      · intro j k hk
        have hj : j < heads.length := by
          by_contra hge
          push_neg at hge
          rw [List.getElem?_eq_none hge] at hk
          exact Option.noConfusion hk
        exact h3 j (by omega) k hk
      · exact h4
  | cons x rest ih =>
      intro n b hd h1 h2 h3 h4
      have hx : heads[n]? = some x := by
        have := List.getElem?_drop heads n 0
        rw [hd] at this
        simpa using this.symm
      have hrest : heads.drop (n + 1) = rest := by
        have := List.tail_drop heads n
        rw [hd] at this
        exact this.symm
      rw [List.enumFrom_cons, mergeSelectGo]
      by_cases hlt : x < b.2
      · rw [if_pos hlt]
        refine ih (n + 1) (n, x) hrest hx (by omega) ?_ ?_
        · intro j hj k hk
          rcases Nat.lt_or_ge j n with hjn | hjn
          · exact le_of_lt (lt_of_lt_of_le hlt (h3 j hjn k hk))
          · have hjn' : j = n := by omega
            subst hjn'
            rw [hx] at hk
            cases hk
            exact le_refl _
        · intro j hj k hk
          exact lt_of_lt_of_le hlt (h3 j hj k hk)
      · rw [if_neg hlt]
        push_neg at hlt
        refine ih (n + 1) b hrest h1 (by omega) ?_ h4
        intro j hj k hk
        rcases Nat.lt_or_ge j n with hjn | hjn
        · exact h3 j hjn k hk
        · have hjn' : j = n := by omega
          subst hjn'
          rw [hx] at hk
          cases hk
          exact hlt

/-- C3 (spec-modelled merge selection): `execute` rejects any partition
other than 0; with no input partition it errors; with one partition it
is a passthrough, wrapped in a limit stream exactly when a fetch is
set; with two or more partitions every input stream is buffered through
a bounded queue of capacity 1 and handed to the streaming merge; and
the merge selection picks a stream holding the smallest head key such
that every lower-indexed stream's head is strictly larger (ties go to
the lowest index). -/
theorem spm_execute_dispatch {S K : Type} [LinearOrder K]
    (e : SortPreservingMergeExec S) (p : Nat) :
    (p ≠ 0 → ∃ msg, e.execute p = .error msg) ∧
    (e.partitions = [] → ∃ msg, e.execute 0 = .error msg) ∧
    (∀ s f, e.partitions = [s] → e.fetch = some f →
      e.execute 0 = .ok (.limited 0 (some f) s)) ∧
    (∀ s, e.partitions = [s] → e.fetch = none → e.execute 0 = .ok (.passthrough s)) ∧
    (2 ≤ e.partitions.length →
      e.execute 0 = .ok (.merged (e.partitions.map (fun s => spawn_buffered s 1)) e.fetch)) ∧
    (∀ (heads : List K) (i : Nat), mergeSelect heads = some i →
      ∃ h, heads[i]? = some h ∧ (∀ k ∈ heads, h ≤ k) ∧
        ∀ j, j < i → ∀ k, heads[j]? = some k → h < k) := by
  refine ⟨?_, ?_, ?_, ?_, ?_, ?_⟩
  · intro hp
    exact ⟨"SortPreservingMergeExec invalid partition",
      by simp [SortPreservingMergeExec.execute, hp]⟩
  · intro hnil
    exact ⟨"SortPreservingMergeExec requires at least one input partition",
      by simp [SortPreservingMergeExec.execute, hnil]⟩
  · intro s f h1 h2
    simp [SortPreservingMergeExec.execute, h1, h2]
  · intro s h1 h2
    simp [SortPreservingMergeExec.execute, h1, h2]
  · intro hlen
    match hm : e.partitions with
    | [] => rw [hm] at hlen; simp at hlen
    | [s] => rw [hm] at hlen; simp at hlen
    | s1 :: s2 :: tl =>
        simp only [SortPreservingMergeExec.execute, if_neg (by omega : ¬ (0 : Nat) ≠ 0), hm]
  · intro heads i hsel
    match hh : heads with
    | [] => simp [mergeSelect] at hsel
    | h0 :: t =>
        simp only [mergeSelect, Option.some.injEq] at hsel
        have hspec := mergeSelectGo_spec (h0 :: t) t 1 (0, h0) (by simp)
          (by simp) (by omega)
          (by
            intro j hj k hk
            have hj0 : j = 0 := by omega
            subst hj0
            simp at hk
            rw [hk])
          (by intro j hj k hk; omega)
        refine ⟨(mergeSelectGo (0, h0) (t.enumFrom 1)).2, ?_, ?_, ?_⟩
        · rw [← hsel]
          exact hspec.1
        · intro k hk
          rcases List.mem_iff_getElem?.mp hk with ⟨j, hj⟩
          exact hspec.2.1 j k hj
        · intro j hj k hk
          rw [← hsel] at hj
          exact hspec.2.2 j hj k hk

theorem spm_execute_dispatch_witness :
    ((⟨[10, 20, 30], none⟩ : SortPreservingMergeExec Nat).execute 0 =
      .ok (.merged (([10, 20, 30] : List Nat).map (fun s => spawn_buffered s 1)) none)) ∧
    ∃ h, ([5, 3, 3] : List Nat)[1]? = some h ∧ (∀ k ∈ ([5, 3, 3] : List Nat), h ≤ k) ∧
      ∀ j, j < 1 → ∀ k, ([5, 3, 3] : List Nat)[j]? = some k → h < k :=
  ⟨(spm_execute_dispatch (K := Nat) ⟨[10, 20, 30], none⟩ 0).2.2.2.2.1 (by decide),
   (spm_execute_dispatch (S := Nat) ⟨[10, 20, 30], none⟩ 0).2.2.2.2.2 [5, 3, 3] 1 (by decide)⟩

/-! ## Hash group index
(`core/src/physical_plan/aggregates/row_hash2.rs`,
`GroupedHashAggregateStream2::update_group_state`)

Group keys in row format are abstracted to a type `G` with decidable
equality; `create_hashes` is an arbitrary function `H : G → Nat` of the
key.  The raw table `map` holds `(hash, group_idx)` pairs probed by
hash equality plus a row-equality check against
`group_values[group_idx]`; `group_values` is the dense list of distinct
group keys in insertion order. -/

structure GroupState (G : Type) where
  map : List (Nat × Nat)
  group_values : List G
deriving DecidableEq

def GroupState.empty (G : Type) : GroupState G := ⟨[], []⟩

variable {G : Type} [DecidableEq G]

/-- `self.map.get_mut(hash, |(_h, idx)| group_rows.row(row) ==
self.group_values[*idx].row())`: probe by stored hash, verify by key
equality at the candidate index. -/
def mapLookup (H : G → Nat) (gs : GroupState G) (key : G) : Option Nat :=
  (gs.map.find? (fun e =>
    decide (e.1 = H key) && decide (gs.group_values[e.2]? = some key))).map (fun e => e.2)

/-- One row of the loop in `update_group_state`: existing entry yields
its index; otherwise the key is appended to `group_values` and
`(hash, new_idx)` inserted into the map. -/
def updateRow (H : G → Nat) (gs : GroupState G) (key : G) : GroupState G × Nat :=
  match mapLookup H gs key with
  | some idx => (gs, idx)
  | none =>
      (⟨gs.map ++ [(H key, gs.group_values.length)], gs.group_values ++ [key]⟩,
        gs.group_values.length)

/-- `update_group_state` over one batch: `group_indices` is cleared and
one index pushed per row. -/
def update_group_state (H : G → Nat) (gs : GroupState G) (rows : List G) :
    GroupState G × List Nat :=
  rows.foldl (fun acc key =>
    ((updateRow H acc.1 key).1, acc.2 ++ [(updateRow H acc.1 key).2])) (gs, [])

def runBatches (H : G → Nat) (gs : GroupState G) :
    List (List G) → GroupState G × List (List Nat)
  | [] => (gs, [])
  | b :: bs =>
      let r := update_group_state H gs b
      let rest := runBatches H r.1 bs
      (rest.1, r.2 :: rest.2)

/-- Index of the first occurrence of `key` in `seen` (specification
side: the dense index a key received on first observation). -/
def seenIdx : List G → G → Option Nat
  | [], _ => none
  | x :: xs, key => if x = key then some 0 else (seenIdx xs key).map (fun i => i + 1)

/-- Specification step: a seen key keeps its first-observation index; a
new key gets index = number of groups seen so far and is appended. -/
def specStep (seen : List G) (key : G) : List G × Nat :=
  match seenIdx seen key with
  | some i => (seen, i)
  | none => (seen ++ [key], seen.length)

def specBatch (seen : List G) (rows : List G) : List G × List Nat :=
  rows.foldl (fun acc key =>
    ((specStep acc.1 key).1, acc.2 ++ [(specStep acc.1 key).2])) (seen, [])

def specRun (seen : List G) : List (List G) → List G × List (List Nat)
  | [] => (seen, [])
  | b :: bs =>
      let r := specBatch seen b
      let rest := specRun r.1 bs
      (rest.1, r.2 :: rest.2)

/-- The map contents reachable from the empty state: one `(H key, i)`
entry per group value, in index order. -/
def specMap (H : G → Nat) (gv : List G) : List (Nat × Nat) :=
  (gv.enumFrom 0).map (fun p => (H p.2, p.1))

theorem mapLookup_spec_aux (H : G → Nat) (key : G) (gv : List G) :
    ∀ (d : List G) (n : Nat), gv.drop n = d →
      (((d.enumFrom n).map (fun p => (H p.2, p.1))).find? (fun e =>
          decide (e.1 = H key) && decide (gv[e.2]? = some key))).map (fun e => e.2)
        = (seenIdx d key).map (fun i => n + i) := by
  intro d
  induction d with
  | nil => intro n hd; simp [seenIdx]
  | cons x rest ih =>
      intro n hd
      have hx : gv[n]? = some x := by
        have := List.getElem?_drop gv n 0
        rw [hd] at this
        simpa using this.symm
      have hrest : gv.drop (n + 1) = rest := by
        have := List.tail_drop gv n
        rw [hd] at this
        exact this.symm
      rw [List.enumFrom_cons]
      simp only [List.map_cons]
      by_cases hxk : x = key
      · subst hxk
        rw [List.find?_cons_of_pos]
        · simp [seenIdx]
        · simp [hx]
      · rw [List.find?_cons_of_neg]
        · rw [ih (n + 1) hrest]
          simp only [seenIdx, if_neg hxk]
          cases seenIdx rest key with
          | none => simp
          | some i =>
              show some (n + 1 + i) = some (n + (i + 1))
              congr 1
              omega
        · simp [hx, hxk]

theorem mapLookup_spec (H : G → Nat) (gv : List G) (key : G) :
    mapLookup H ⟨specMap H gv, gv⟩ key = seenIdx gv key := by
  have h := mapLookup_spec_aux H key gv gv 0 (by simp)
  simp only [mapLookup, specMap]
  rw [h]
  cases seenIdx gv key <;> simp

theorem specMap_append (H : G → Nat) (gv : List G) (key : G) :
    specMap H (gv ++ [key]) = specMap H gv ++ [(H key, gv.length)] := by
  simp [specMap, List.enumFrom_append]

theorem updateRow_spec (H : G → Nat) (gv : List G) (key : G) :
    updateRow H ⟨specMap H gv, gv⟩ key =
      (⟨specMap H (specStep gv key).1, (specStep gv key).1⟩, (specStep gv key).2) := by
  simp only [updateRow, specStep, mapLookup_spec]
  cases h : seenIdx gv key with
  | some i => rfl
  | none =>
      simp only []
      rw [specMap_append]

theorem foldl_update_spec (H : G → Nat) :
    ∀ (rows : List G) (gv : List G) (idxs : List Nat),
      rows.foldl (fun acc key =>
          ((updateRow H acc.1 key).1, acc.2 ++ [(updateRow H acc.1 key).2]))
        (⟨specMap H gv, gv⟩, idxs)
      = (⟨specMap H (rows.foldl (fun acc key =>
            ((specStep acc.1 key).1, acc.2 ++ [(specStep acc.1 key).2])) (gv, idxs)).1,
          (rows.foldl (fun acc key =>
            ((specStep acc.1 key).1, acc.2 ++ [(specStep acc.1 key).2])) (gv, idxs)).1⟩,
          (rows.foldl (fun acc key =>
            ((specStep acc.1 key).1, acc.2 ++ [(specStep acc.1 key).2])) (gv, idxs)).2) := by
  intro rows
  induction rows with
  | nil => intro gv idxs; rfl
  | cons x xs ih =>
      intro gv idxs
      rw [List.foldl_cons, List.foldl_cons]
      have hstep := updateRow_spec H gv x
      show xs.foldl _
          ((updateRow H ⟨specMap H gv, gv⟩ x).1,
            idxs ++ [(updateRow H ⟨specMap H gv, gv⟩ x).2]) = _
      rw [hstep]
      exact ih (specStep gv x).1 (idxs ++ [(specStep gv x).2])

theorem update_group_state_spec (H : G → Nat) (gv : List G) (rows : List G) :
    update_group_state H ⟨specMap H gv, gv⟩ rows
      = (⟨specMap H (specBatch gv rows).1, (specBatch gv rows).1⟩,
          (specBatch gv rows).2) := by
  simp only [update_group_state, specBatch]
  exact foldl_update_spec H rows gv []

theorem runBatches_spec (H : G → Nat) :
    ∀ (bs : List (List G)) (gv : List G),
      runBatches H ⟨specMap H gv, gv⟩ bs
        = (⟨specMap H (specRun gv bs).1, (specRun gv bs).1⟩, (specRun gv bs).2) := by
  intro bs
  induction bs with
  | nil => intro gv; rfl
  | cons b rest ih =>
      intro gv
      simp only [runBatches, specRun]
      rw [update_group_state_spec]
      rw [ih (specBatch gv b).1]

theorem updateRow_extends (H : G → Nat) (gs : GroupState G) (key : G) :
    ∃ tl, (updateRow H gs key).1.group_values = gs.group_values ++ tl := by
  cases h : mapLookup H gs key with
  | some idx => exact ⟨[], by simp [updateRow, h]⟩
  | none => exact ⟨[key], by simp [updateRow, h]⟩

theorem foldl_update_extends (H : G → Nat) :
    ∀ (rows : List G) (gs : GroupState G) (idxs : List Nat),
      ∃ tl, (rows.foldl (fun acc key =>
          ((updateRow H acc.1 key).1, acc.2 ++ [(updateRow H acc.1 key).2]))
        (gs, idxs)).1.group_values = gs.group_values ++ tl := by
  intro rows
  induction rows with
  | nil => intro gs idxs; exact ⟨[], by simp⟩
  | cons x xs ih =>
      intro gs idxs
      rw [List.foldl_cons]
      obtain ⟨t1, h1⟩ := updateRow_extends H gs x
      obtain ⟨t2, h2⟩ := ih (updateRow H gs x).1 (idxs ++ [(updateRow H gs x).2])
      exact ⟨t1 ++ t2, by rw [h2, h1, List.append_assoc]⟩

/-- C8: the hash group index assigns indices densely in insertion
order: running `update_group_state` from the empty state coincides with
the specification machine in which the first observation of a distinct
key receives a new index equal to the number of groups seen so far, and
every later row with an equal key receives that stored index; moreover
`group_values` only ever grows by appending, so an assigned index is
never deleted and the key stored at an index is never reassigned. -/
theorem hash_group_index_dense (H : G → Nat) (batches : List (List G)) :
    runBatches H (GroupState.empty G) batches
      = (⟨specMap H (specRun [] batches).1, (specRun [] batches).1⟩,
          (specRun [] batches).2) ∧
    (∀ (gs : GroupState G) (rows : List G), ∃ tl,
      (update_group_state H gs rows).1.group_values = gs.group_values ++ tl) ∧
    (∀ (gs : GroupState G) (rows : List G) (i : Nat), i < gs.group_values.length →
      (update_group_state H gs rows).1.group_values[i]? = gs.group_values[i]?) := by
  refine ⟨runBatches_spec H batches [], ?_, ?_⟩
  · intro gs rows
    exact foldl_update_extends H rows gs []
  · intro gs rows i hi
    obtain ⟨tl, htl⟩ := foldl_update_extends H rows gs []
    show (update_group_state H gs rows).1.group_values[i]? = _
    rw [update_group_state, htl, List.getElem?_append, if_pos hi]

theorem hash_group_index_dense_witness :
    (update_group_state (fun g => g % 3) (⟨[(2, 0)], [2]⟩ : GroupState Nat) [7]).1.group_values[0]?
      = (⟨[(2, 0)], [2]⟩ : GroupState Nat).group_values[0]? :=
  (hash_group_index_dense (fun g => g % 3) []).2.2 ⟨[(2, 0)], [2]⟩ [7] 0 (by decide)

/-! ## Cross-runtime stream bridge
(`execution/src/cross_rt_stream.rs`)

`CrossRtStream::poll_next` is translated directly; the two boolean
flags are the stream state, and the outcomes of polling the driver
future (`d : Bool`, ready or not, consulted only while the driver is
not yet ready) and the receiver channel (`i`, consulted only while the
channel has not finished) are inputs of one poll. -/

inductive PollRes (T : Type) where
  | pending
  | ready (x : Option T)
deriving DecidableEq

structure CrossRtState where
  driver_ready : Bool
  inner_done : Bool
deriving DecidableEq

def CrossRtState.poll_next (s : CrossRtState) (d : Bool) {T : Type} (i : PollRes T) :
    CrossRtState × PollRes T :=
  let dr := if s.driver_ready then true else d
  if s.inner_done then
    if dr then (⟨dr, true⟩, .ready none) else (⟨dr, true⟩, .pending)
  else
    match i with
    | .pending => (⟨dr, s.inner_done⟩, .pending)
    | .ready none =>
        if dr then (⟨dr, true⟩, .ready none) else (⟨dr, true⟩, .pending)
    | .ready (some x) => (⟨dr, s.inner_done⟩, .ready (some x))

/-- The channel contents produced by `new_with_error_stream`: the
driver forwards the items the wrapped stream yielded before the
`spawn_cpu` job resolved, and when the job fails (modelled from the
spec: `spawn_cpu` reports a panic or cancellation as a `JobError`) it
sends the converted error as the last message. -/
def driverMessages {X E J : Type} (sent : List (Except E X)) (jobRes : Option J)
    (conv : J → E) : List (Except E X) :=
  match jobRes with
  | none => sent
  | some j => sent ++ [.error (conv j)]

/-- A consumer that polls once per channel message while the driver is
still running, collecting the poll results. -/
def feedMsgs {T : Type} : CrossRtState → List T → CrossRtState × List (PollRes T)
  | s, [] => (s, [])
  | s, m :: ms =>
      let r := s.poll_next false (.ready (some m))
      let rest := feedMsgs r.1 ms
      (rest.1, r.2 :: rest.2)

theorem feedMsgs_not_done {T : Type} :
    ∀ (ms : List T) (s : CrossRtState), s.inner_done = false →
      (feedMsgs s ms).1 = s ∧
      (feedMsgs s ms).2 = ms.map (fun m => PollRes.ready (some m)) := by
  intro ms
  induction ms with
  | nil => intro s hs; exact ⟨rfl, rfl⟩
  | cons m rest ih =>
      intro s hs
      obtain ⟨sd, si⟩ := s
      have hsi : si = false := hs
      subst hsi
      have hstep : CrossRtState.poll_next ⟨sd, false⟩ false (.ready (some m))
          = (⟨sd, false⟩, .ready (some m)) := by
        cases sd <;> simp [CrossRtState.poll_next]
      simp only [feedMsgs, hstep]
      obtain ⟨h1, h2⟩ := ih ⟨sd, false⟩ rfl
      rw [h1, h2]
      exact ⟨rfl, rfl⟩

/-- C9: (a) `poll_next` yields end-of-stream only when the driver
future has completed and the channel has drained, both in the resulting
state and in terms of this poll's inputs; (b) under a catastrophic
producer failure the converted error is the last channel message; and
(c) a consumer polling the bridge observes exactly the channel messages
in order and then — the driver having completed — end-of-stream. -/
theorem cross_rt_stream_contract {T X E J : Type} (s : CrossRtState) (d : Bool)
    (i : PollRes T) (sent : List (Except E X)) (j : J) (conv : J → E)
    (msgs : List T) :
    ((s.poll_next d i).2 = .ready none →
      ((s.poll_next d i).1.driver_ready = true ∧ (s.poll_next d i).1.inner_done = true) ∧
      (s.driver_ready = true ∨ d = true) ∧ (s.inner_done = true ∨ i = .ready none)) ∧
    (driverMessages sent (some j) conv).getLast? = some (.error (conv j)) ∧
    ((feedMsgs ⟨false, false⟩ msgs).2 = msgs.map (fun m => PollRes.ready (some m)) ∧
      ((feedMsgs ⟨false, false⟩ msgs).1.poll_next true (.ready (none : Option T))).2
        = .ready none) := by
  refine ⟨?_, ?_, ?_, ?_⟩
  · intro h
    cases hdone : s.inner_done <;> cases hdr : s.driver_ready <;> cases d <;>
      first
        | (cases i with
            | pending => simp [CrossRtState.poll_next, hdone, hdr] at h ⊢
            | ready x =>
                cases x <;> simp [CrossRtState.poll_next, hdone, hdr] at h ⊢)
        | simp [CrossRtState.poll_next, hdone, hdr] at h ⊢
  · simp [driverMessages]
  · exact (feedMsgs_not_done msgs ⟨false, false⟩ rfl).2
  · rw [(feedMsgs_not_done msgs ⟨false, false⟩ rfl).1]
    simp [CrossRtState.poll_next]

theorem cross_rt_stream_contract_witness :
    ((⟨true, false⟩ : CrossRtState).poll_next false (.ready (none : Option Nat))).1.driver_ready = true ∧
    ((⟨true, false⟩ : CrossRtState).poll_next false (.ready (none : Option Nat))).1.inner_done = true :=
  ((cross_rt_stream_contract (X := Nat) (E := Nat) (J := Nat)
      ⟨true, false⟩ false (.ready none) [] 0 id [1]).1 (by decide)).1

/-! ## Group-column builders
(`physical-plan/src/aggregates/group_values/group_column.rs`)

Bytes are modelled as `List Nat`; an arrow array is a values buffer
plus a null flag per row (`is_null`), so a null row still has an
underlying buffer value.  `MaybeNullBufferBuilder` lives outside this
tree and is modelled from the spec as the list of per-row null flags. -/

/-- `nulls_equal_to` (group_column.rs:753-759). -/
def nulls_equal_to (lhs_null rhs_null : Bool) : Option Bool :=
  match lhs_null, rhs_null with
  | true, true => some true
  | false, true => some false
  | true, false => some false
  | false, false => none

/-- An incoming primitive column: underlying values plus null flags. -/
structure PrimCol (V : Type) where
  values : List V
  nulls : List Bool
deriving DecidableEq

/-- Both-null → equal, one-null → unequal, otherwise value equality:
the specification's comparison of two logical (nullable) values. -/
def specEqOpt {α : Type} [DecidableEq α] : Option α → Option α → Bool
  | none, none => true
  | some x, some y => decide (x = y)
  | _, _ => false

structure PrimitiveGroupValueBuilder (V : Type) where
  group_values : List V
  nulls : List Bool
deriving DecidableEq

variable {V : Type} [DecidableEq V]

/-- `PrimitiveGroupValueBuilder::<T, NULLABLE>::equal_to`
(group_column.rs:106-118): the null short-circuit runs only when
`NULLABLE`; otherwise the underlying values are compared directly. -/
def PrimitiveGroupValueBuilder.equal_to (NULLABLE : Bool)
    (b : PrimitiveGroupValueBuilder V) (col : PrimCol V) (l r : Nat) : Bool :=
  let valcmp := decide (b.group_values[l]? = col.values[r]?)
  if NULLABLE then
    match nulls_equal_to (b.nulls.getD l false) (col.nulls.getD r false) with
    | some result => result
    | none => valcmp
  else valcmp

/-- `PrimitiveGroupValueBuilder::<T, NULLABLE>::append_val`
(group_column.rs:120-133). -/
def PrimitiveGroupValueBuilder.append_val (NULLABLE : Bool) (dflt : V)
    (b : PrimitiveGroupValueBuilder V) (col : PrimCol V) (row : Nat) :
    PrimitiveGroupValueBuilder V :=
  if NULLABLE then
    if col.nulls.getD row false then
      ⟨b.group_values ++ [dflt], b.nulls ++ [true]⟩
    else
      ⟨b.group_values ++ [col.values.getD row dflt], b.nulls ++ [false]⟩
  else
    ⟨b.group_values ++ [col.values.getD row dflt], b.nulls⟩

/-- An incoming byte column: underlying byte values plus null flags. -/
structure ByteCol where
  values : List (List Nat)
  nulls : List Bool
deriving DecidableEq

structure ByteGroupValueBuilder where
  buffer : List Nat
  offsets : List Nat
  nulls : List Bool
deriving DecidableEq

def ByteGroupValueBuilder.new : ByteGroupValueBuilder := ⟨[], [0], []⟩

/-- `ByteGroupValueBuilder::append_val_inner` (group_column.rs:207-223):
nulls get a zero-length slot, values are appended to the buffer with a
closing offset. -/
def ByteGroupValueBuilder.append_val_inner (b : ByteGroupValueBuilder)
    (col : ByteCol) (row : Nat) : ByteGroupValueBuilder :=
  if col.nulls.getD row false then
    ⟨b.buffer, b.offsets ++ [b.buffer.length], b.nulls ++ [true]⟩
  else
    let value := col.values.getD row []
    ⟨b.buffer ++ value, b.offsets ++ [b.buffer.length + value.length], b.nulls ++ [false]⟩

/-- `ByteGroupValueBuilder::value` (group_column.rs:240-245): the byte
slice `buffer[offsets[row]..offsets[row+1]]`. -/
def ByteGroupValueBuilder.value (b : ByteGroupValueBuilder) (row : Nat) : List Nat :=
  (b.buffer.drop (b.offsets.getD row 0)).take (b.offsets.getD (row + 1) 0 - b.offsets.getD row 0)

/-- `ByteGroupValueBuilder::equal_to_inner` (group_column.rs:225-237). -/
def ByteGroupValueBuilder.equal_to_inner (b : ByteGroupValueBuilder)
    (col : ByteCol) (l r : Nat) : Bool :=
  match nulls_equal_to (b.nulls.getD l false) (col.nulls.getD r false) with
  | some result => result
  | none => decide (b.value l = col.values.getD r [])

/-- A byte builder reachable by appending the given optional values
(each row appended from a singleton column). -/
def byteFromValues (vs : List (Option (List Nat))) : ByteGroupValueBuilder :=
  vs.foldl (fun b v =>
    b.append_val_inner ⟨[v.getD []], [v.isNone]⟩ 0) ByteGroupValueBuilder.new

/-- The payload of a `u128` view (group_column.rs:400-430): a value of
length ≤ 12 is stored inline; a longer value stores its 4-byte prefix
plus the index of the holding buffer and the offset inside it. -/
inductive VData where
  | inl (bytes : List Nat)
  | ind (pre4 : List Nat) (buffer_index : Nat) (offset : Nat)
deriving DecidableEq

/-- A decoded view: the value length (the low 32 bits of the `u128`)
plus the payload.  Value lengths are below `2^32` for every reachable
builder, so the length is kept exact. -/
structure VView where
  len : Nat
  data : VData
deriving DecidableEq

/-- `make_view(value, buffer_index, offset)`: inline iff the value fits
in 12 bytes. -/
def makeView (value : List Nat) (buffer_index offset : Nat) : VView :=
  if value.length ≤ 12 then ⟨value.length, .inl value⟩
  else ⟨value.length, .ind (value.take 4) buffer_index offset⟩

/-- `GenericByteViewArray::inline_value(&view, len)` for an inlined
view: the stored bytes. -/
def VView.inlineVal : VView → List Nat
  | ⟨_, .inl bytes⟩ => bytes
  | ⟨_, .ind p _ _⟩ => p

/-- `inline_value(&view, 4)`: the first four value bytes. -/
def VView.pre4 : VView → List Nat
  | ⟨_, .inl bytes⟩ => bytes.take 4
  | ⟨_, .ind p _ _⟩ => p

def VView.buffer_index : VView → Nat
  | ⟨_, .inl _⟩ => 0
  | ⟨_, .ind _ bi _⟩ => bi

def VView.offset : VView → Nat
  | ⟨_, .inl _⟩ => 0
  | ⟨_, .ind _ _ off⟩ => off

structure ByteGroupValueViewBuilder where
  views : List VView
  in_progress : List Nat
  completed : List (List Nat)
  max_block_size : Nat
  nulls : List Bool
deriving DecidableEq

def ByteGroupValueViewBuilder.new (max_block_size : Nat) : ByteGroupValueViewBuilder :=
  ⟨[], [], [], max_block_size, []⟩

/-- `ByteGroupValueViewBuilder::value` (group_column.rs:550-559). -/
def ByteGroupValueViewBuilder.value (b : ByteGroupValueViewBuilder)
    (buffer_index offset length : Nat) : List Nat :=
  if buffer_index < b.completed.length then
    (((b.completed.getD buffer_index []).drop offset).take length)
  else
    ((b.in_progress.drop offset).take length)

/-- `ensure_in_progress_big_enough` (group_column.rs:469-482). -/
def ByteGroupValueViewBuilder.ensure_big_enough (b : ByteGroupValueViewBuilder)
    (value_len : Nat) : ByteGroupValueViewBuilder :=
  if b.in_progress.length + value_len > b.max_block_size then
    { b with in_progress := [], completed := b.completed ++ [b.in_progress] }
  else b

/-- `ByteGroupValueViewBuilder::append_val_inner`
(group_column.rs:433-467), taking the row's logical value directly
(null rows push view `0`). -/
def ByteGroupValueViewBuilder.appendOpt (b : ByteGroupValueViewBuilder) :
    Option (List Nat) → ByteGroupValueViewBuilder
  | none => { b with nulls := b.nulls ++ [true], views := b.views ++ [⟨0, .inl []⟩] }
  | some value =>
      if value.length ≤ 12 then
        { b with nulls := b.nulls ++ [false],
                 views := b.views ++ [makeView value 0 0] }
      else
        let b' := b.ensure_big_enough value.length
        let buffer_index := b'.completed.length
        let offset := b'.in_progress.length
        { b' with nulls := b'.nulls ++ [false],
                  in_progress := b'.in_progress ++ value,
                  views := b'.views ++ [makeView value buffer_index offset] }

/-- An incoming view column: underlying byte values plus null flags
(its views are reconstructed from the values; only length, inline
bytes, prefix and the full value of the incoming row are consulted). -/
structure ViewCol where
  values : List (List Nat)
  nulls : List Bool
deriving DecidableEq

/-- `ByteGroupValueViewBuilder::equal_to_inner`
(group_column.rs:484-548): null short-circuit, then length check, then
inline comparison for short values, or prefix comparison followed by a
full buffer read for long values. -/
def ByteGroupValueViewBuilder.equal_to_inner (b : ByteGroupValueViewBuilder)
    (col : ViewCol) (l r : Nat) : Bool :=
  match nulls_equal_to (b.nulls.getD l false) (col.nulls.getD r false) with
  | some result => result
  | none =>
      let exist_view := b.views.getD l ⟨0, .inl []⟩
      let input_view := makeView (col.values.getD r []) 0 0
      if exist_view.len ≠ input_view.len then false
      else if exist_view.len ≤ 12 then
        decide (exist_view.inlineVal = input_view.inlineVal)
      else
        if exist_view.pre4 ≠ input_view.pre4 then false
        else
          decide (b.value exist_view.buffer_index exist_view.offset exist_view.len
            = col.values.getD r [])

def viewFromValues (max_block_size : Nat) (vs : List (Option (List Nat))) :
    ByteGroupValueViewBuilder :=
  vs.foldl ByteGroupValueViewBuilder.appendOpt
    (ByteGroupValueViewBuilder.new max_block_size)

/-- A nullable primitive builder reachable by appending the given
optional values (`T::default_value()` modelled as `dflt`). -/
def primFromValues (dflt : V) (vs : List (Option V)) : PrimitiveGroupValueBuilder V :=
  vs.foldl (fun b v =>
    b.append_val true dflt ⟨[v.getD dflt], [v.isNone]⟩ 0) ⟨[], []⟩

theorem primFromValues_state (dflt : V) (vs : List (Option V)) :
    (primFromValues dflt vs).group_values = vs.map (fun v => v.getD dflt) ∧
    (primFromValues dflt vs).nulls = vs.map Option.isNone := by
  suffices h : ∀ (vs : List (Option V)) (b : PrimitiveGroupValueBuilder V),
      (vs.foldl (fun b v =>
        b.append_val true dflt ⟨[v.getD dflt], [v.isNone]⟩ 0) b).group_values
        = b.group_values ++ vs.map (fun v => v.getD dflt) ∧
      (vs.foldl (fun b v =>
        b.append_val true dflt ⟨[v.getD dflt], [v.isNone]⟩ 0) b).nulls
        = b.nulls ++ vs.map Option.isNone by
    have := h vs ⟨[], []⟩
    simpa [primFromValues] using this
  intro vs
  induction vs with
  | nil => intro b; simp
  | cons v rest ih =>
      intro b
      rw [List.foldl_cons]
      have hstep : PrimitiveGroupValueBuilder.append_val true dflt b
          ⟨[v.getD dflt], [v.isNone]⟩ 0
          = ⟨b.group_values ++ [v.getD dflt], b.nulls ++ [v.isNone]⟩ := by
        cases v with
        | none => simp [PrimitiveGroupValueBuilder.append_val]
        | some x => simp [PrimitiveGroupValueBuilder.append_val]
      rw [hstep]
      obtain ⟨h1, h2⟩ := ih ⟨b.group_values ++ [v.getD dflt], b.nulls ++ [v.isNone]⟩
      rw [h1, h2]
      simp

def storedBytes (v : Option (List Nat)) : List Nat := v.getD []

/-- Offsets of a reachable byte builder: partial sums of stored value
lengths. -/
def offsetsOf (vs : List (Option (List Nat))) : List Nat :=
  (List.range (vs.length + 1)).map
    (fun i => (((vs.take i).map (fun v => (storedBytes v).length)).sum))

theorem offsetsOf_append_one (vs : List (Option (List Nat))) (v : Option (List Nat)) :
    offsetsOf (vs ++ [v]) = offsetsOf vs
      ++ [((vs.map (fun w => (storedBytes w).length)).sum + (storedBytes v).length)] := by
  simp only [offsetsOf, List.length_append, List.length_cons, List.length_nil]
  rw [show vs.length + 0 + 1 + 1 = (vs.length + 1) + 1 by omega]
  rw [List.range_succ, List.map_append]
  congr 1
  · apply List.map_congr_left
    intro i hi
    rw [List.mem_range] at hi
    rw [List.take_append_of_le_length (by omega)]
  · simp [List.take_of_length_le]

theorem flatten_map_length_sum (vs : List (Option (List Nat))) :
    ((vs.map storedBytes).flatten).length
      = (vs.map (fun w => (storedBytes w).length)).sum := by
  induction vs with
  | nil => rfl
  | cons p ps ih => simp [List.flatten_cons, ih]

theorem byteFromValues_state (vs : List (Option (List Nat))) :
    (byteFromValues vs).buffer = (vs.map storedBytes).flatten ∧
    (byteFromValues vs).offsets = offsetsOf vs ∧
    (byteFromValues vs).nulls = vs.map Option.isNone := by
  suffices h : ∀ (rest pre : List (Option (List Nat))),
      (byteFromValues pre).buffer = (pre.map storedBytes).flatten →
      (byteFromValues pre).offsets = offsetsOf pre →
      (byteFromValues pre).nulls = pre.map Option.isNone →
      (rest.foldl (fun b v =>
          b.append_val_inner ⟨[v.getD []], [v.isNone]⟩ 0) (byteFromValues pre)).buffer
        = ((pre ++ rest).map storedBytes).flatten ∧
      (rest.foldl (fun b v =>
          b.append_val_inner ⟨[v.getD []], [v.isNone]⟩ 0) (byteFromValues pre)).offsets
        = offsetsOf (pre ++ rest) ∧
      (rest.foldl (fun b v =>
          b.append_val_inner ⟨[v.getD []], [v.isNone]⟩ 0) (byteFromValues pre)).nulls
        = (pre ++ rest).map Option.isNone by
    have := h vs [] (by rfl) (by rfl) (by rfl)
    simpa [byteFromValues] using this
  intro rest
  induction rest with
  | nil => intro pre h1 h2 h3; simpa using ⟨h1, h2, h3⟩
  | cons v vr ih =>
      intro pre h1 h2 h3
      have hfold : (byteFromValues pre).append_val_inner ⟨[v.getD []], [v.isNone]⟩ 0
          = byteFromValues (pre ++ [v]) := by
        simp [byteFromValues, List.foldl_append]
      have hlast : (offsetsOf pre).getLast? = some ((pre.map (fun w => (storedBytes w).length)).sum) := by
        simp only [offsetsOf]
        rw [List.range_succ, List.map_append]
        simp [List.take_of_length_le]
      have hb1 : (byteFromValues (pre ++ [v])).buffer = ((pre ++ [v]).map storedBytes).flatten := by
        rw [← hfold]
        cases v with
        | none =>
            simp [ByteGroupValueBuilder.append_val_inner, h1, storedBytes]
        | some bytes =>
            simp [ByteGroupValueBuilder.append_val_inner, h1, storedBytes]
      have hb2 : (byteFromValues (pre ++ [v])).offsets = offsetsOf (pre ++ [v]) := by
        rw [← hfold, offsetsOf_append_one]
        have hlen : (byteFromValues pre).buffer.length
            = (pre.map (fun w => (storedBytes w).length)).sum := by
          rw [h1]
          exact flatten_map_length_sum pre
        cases v with
        | none =>
            simp [ByteGroupValueBuilder.append_val_inner, h2, hlen, storedBytes]
        | some bytes =>
            simp [ByteGroupValueBuilder.append_val_inner, h2, hlen, storedBytes]
      have hb3 : (byteFromValues (pre ++ [v])).nulls = (pre ++ [v]).map Option.isNone := by
        rw [← hfold]
        cases v with
        | none => simp [ByteGroupValueBuilder.append_val_inner, h3]
        | some bytes => simp [ByteGroupValueBuilder.append_val_inner, h3]
      have := ih (pre ++ [v]) hb1 hb2 hb3
      rw [List.foldl_cons, hfold]
      simpa using this

theorem sliceAt (ls : List (List Nat)) :
    ∀ l, l < ls.length →
      ((ls.flatten.drop (((ls.take l).map List.length).sum)).take
        ((((ls.take (l + 1)).map List.length).sum) - (((ls.take l).map List.length).sum)))
        = ls.getD l [] := by
  induction ls with
  | nil => intro l hl; simp at hl
  | cons x xs ih =>
      intro l hl
      cases l with
      | zero =>
          simp only [List.take_zero, List.map_nil, List.sum_nil, List.drop_zero,
            List.flatten_cons, Nat.zero_add, List.take_succ_cons, List.take_zero,
            List.map_cons, List.sum_cons, Nat.sub_zero, List.sum_nil, Nat.add_zero]
          rw [List.take_left]
          rfl
      | succ l' =>
          have hl' : l' < xs.length := by simpa using hl
          simp only [List.take_succ_cons, List.map_cons, List.sum_cons, List.flatten_cons]
          rw [List.drop_append]
          rw [show x.length + ((xs.take (l' + 1)).map List.length).sum
              - (x.length + ((xs.take l').map List.length).sum)
              = ((xs.take (l' + 1)).map List.length).sum
                - ((xs.take l').map List.length).sum by omega]
          exact ih l' hl'

theorem byteFromValues_value (vs : List (Option (List Nat))) (l : Nat)
    (hl : l < vs.length) :
    (byteFromValues vs).value l = storedBytes (vs.getD l none) := by
  obtain ⟨hbuf, hoffs, _⟩ := byteFromValues_state vs
  have hoff : ∀ i, i ≤ vs.length → (offsetsOf vs).getD i 0
      = ((vs.take i).map (fun v => (storedBytes v).length)).sum := by
    intro i hi
    simp [offsetsOf, List.getD_eq_getElem?_getD, List.getElem?_range,
      Nat.lt_succ_of_le hi]
  have hmap : ∀ i, (((vs.map storedBytes).take i).map List.length).sum
      = ((vs.take i).map (fun v => (storedBytes v).length)).sum := by
    intro i
    rw [← List.map_take, List.map_map]
    rfl
  have hgd : (vs.map storedBytes).getD l [] = storedBytes (vs.getD l none) := by
    rw [List.getD_eq_getElem?_getD, List.getD_eq_getElem?_getD, List.getElem?_map]
    rw [List.getElem?_eq_getElem hl]
    rfl
  rw [ByteGroupValueBuilder.value, hbuf, hoffs, hoff l (by omega),
    hoff (l + 1) (by omega), ← hmap l, ← hmap (l + 1), ← hgd]
  exact sliceAt (vs.map storedBytes) l (by simpa using hl)

/-- The logical (nullable) value of an incoming column row. -/
def colLogicalB (col : ByteCol) (r : Nat) : Option (List Nat) :=
  if col.nulls.getD r false then none else some (col.values.getD r [])

theorem byte_equal_to_spec (vs : List (Option (List Nat))) (col : ByteCol)
    (l r : Nat) (hl : l < vs.length) :
    (byteFromValues vs).equal_to_inner col l r
      = specEqOpt (vs.getD l none) (colLogicalB col r) := by
  obtain ⟨_, _, hnulls⟩ := byteFromValues_state vs
  have hnl : (byteFromValues vs).nulls.getD l false = (vs.getD l none).isNone := by
    rw [hnulls, List.getD_eq_getElem?_getD, List.getD_eq_getElem?_getD,
      List.getElem?_map, List.getElem?_eq_getElem hl]
    rfl
  rw [ByteGroupValueBuilder.equal_to_inner, hnl]
  cases hv : vs.getD l none with
  | none =>
      cases hcn : col.nulls[r]?.getD false with
      | true =>
          simp [nulls_equal_to, colLogicalB, List.getD_eq_getElem?_getD, hcn, specEqOpt]
      | false =>
          simp [nulls_equal_to, colLogicalB, List.getD_eq_getElem?_getD, hcn, specEqOpt]
  | some bytes =>
      cases hcn : col.nulls[r]?.getD false with
      | true =>
          simp [nulls_equal_to, colLogicalB, List.getD_eq_getElem?_getD, hcn, specEqOpt]
      | false =>
          have hval := byteFromValues_value vs l hl
          rw [hv] at hval
          simp [nulls_equal_to, colLogicalB, List.getD_eq_getElem?_getD, hcn, specEqOpt,
            hval, storedBytes]

/-- A non-inlined view `(bi, off, len)` resolves to `bytes` against the
builder's buffers: either inside a completed block or inside the
in-progress block, with the slice fully in bounds. -/
def resolvesTo (completed : List (List Nat)) (in_progress : List Nat)
    (bi off len : Nat) (bytes : List Nat) : Prop :=
  (bi < completed.length ∧ off + len ≤ (completed.getD bi []).length ∧
    ((completed.getD bi []).drop off).take len = bytes) ∨
  (bi = completed.length ∧ off + len ≤ in_progress.length ∧
    (in_progress.drop off).take len = bytes)

/-- The view stored for a row is consistent with the row's logical
value. -/
def viewOk (completed : List (List Nat)) (in_progress : List Nat)
    (w : VView) (v : Option (List Nat)) : Prop :=
  match v with
  | none => w = ⟨0, .inl []⟩
  | some bytes =>
      if bytes.length ≤ 12 then w = ⟨bytes.length, .inl bytes⟩
      else ∃ bi off, w = ⟨bytes.length, .ind (bytes.take 4) bi off⟩ ∧
        resolvesTo completed in_progress bi off bytes.length bytes

structure ViewInv (vs : List (Option (List Nat))) (b : ByteGroupValueViewBuilder) : Prop where
  nulls_eq : b.nulls = vs.map Option.isNone
  views_len : b.views.length = vs.length
  ok : ∀ l, l < vs.length →
    viewOk b.completed b.in_progress (b.views.getD l ⟨0, .inl []⟩) (vs.getD l none)

theorem resolvesTo_extend (c : List (List Nat)) (ip e : List Nat)
    (bi off len : Nat) (bytes : List Nat)
    (h : resolvesTo c ip bi off len bytes) : resolvesTo c (ip ++ e) bi off len bytes := by
  rcases h with ⟨h1, h2, h3⟩ | ⟨h1, h2, h3⟩
  · exact Or.inl ⟨h1, h2, h3⟩
  · refine Or.inr ⟨h1, by simp; omega, ?_⟩
    rw [List.drop_append_of_le_length (by omega),
      List.take_append_of_le_length (by simp; omega)]
    exact h3

theorem resolvesTo_flush (c : List (List Nat)) (ip : List Nat)
    (bi off len : Nat) (bytes : List Nat)
    (h : resolvesTo c ip bi off len bytes) : resolvesTo (c ++ [ip]) [] bi off len bytes := by
  rcases h with ⟨h1, h2, h3⟩ | ⟨h1, h2, h3⟩
  · refine Or.inl ⟨by simp; omega, ?_, ?_⟩
    · rw [List.getD_eq_getElem?_getD, List.getElem?_append, if_pos h1,
        ← List.getD_eq_getElem?_getD]
      exact h2
    · rw [List.getD_eq_getElem?_getD, List.getElem?_append, if_pos h1,
        ← List.getD_eq_getElem?_getD]
      exact h3
  · subst h1
    refine Or.inl ⟨by simp, ?_, ?_⟩
    · rw [List.getD_eq_getElem?_getD, List.getElem?_append_right (le_refl c.length)]
      simpa using h2
    · rw [List.getD_eq_getElem?_getD, List.getElem?_append_right (le_refl c.length)]
      simpa using h3

theorem viewOk_extend (c : List (List Nat)) (ip e : List Nat) (w : VView)
    (v : Option (List Nat)) (h : viewOk c ip w v) : viewOk c (ip ++ e) w v := by
  cases v with
  | none => exact h
  | some bytes =>
      simp only [viewOk] at h ⊢
      by_cases hlen : bytes.length ≤ 12
      · rw [if_pos hlen] at h ⊢; exact h
      · rw [if_neg hlen] at h ⊢
        obtain ⟨bi, off, hw, hr⟩ := h
        exact ⟨bi, off, hw, resolvesTo_extend c ip e bi off bytes.length bytes hr⟩

theorem viewOk_flush (c : List (List Nat)) (ip : List Nat) (w : VView)
    (v : Option (List Nat)) (h : viewOk c ip w v) : viewOk (c ++ [ip]) [] w v := by
  cases v with
  | none => exact h
  | some bytes =>
      simp only [viewOk] at h ⊢
      by_cases hlen : bytes.length ≤ 12
      · rw [if_pos hlen] at h ⊢; exact h
      · rw [if_neg hlen] at h ⊢
        obtain ⟨bi, off, hw, hr⟩ := h
        exact ⟨bi, off, hw, resolvesTo_flush c ip bi off bytes.length bytes hr⟩

theorem getD_append_lt {α : Type} (a b : List α) (l : Nat) (d : α) (h : l < a.length) :
    (a ++ b).getD l d = a.getD l d := by
  simp [List.getD_eq_getElem?_getD, List.getElem?_append, h]

theorem getD_append_len {α : Type} (a b : List α) (d : α) :
    (a ++ b).getD a.length d = b.getD 0 d := by
  rw [List.getD_eq_getElem?_getD, List.getElem?_append_right (le_refl a.length)]
  simp [List.getD_eq_getElem?_getD]

theorem appendOpt_long_noflush (b : ByteGroupValueViewBuilder) (value : List Nat)
    (h12 : ¬ value.length ≤ 12)
    (hcap : ¬ b.max_block_size < b.in_progress.length + value.length) :
    b.appendOpt (some value) =
      { b with nulls := b.nulls ++ [false],
               in_progress := b.in_progress ++ value,
               views := b.views
                 ++ [makeView value b.completed.length b.in_progress.length] } := by
  simp [ByteGroupValueViewBuilder.appendOpt, h12,
    ByteGroupValueViewBuilder.ensure_big_enough, hcap]

theorem appendOpt_long_flush (b : ByteGroupValueViewBuilder) (value : List Nat)
    (h12 : ¬ value.length ≤ 12)
    (hcap : b.max_block_size < b.in_progress.length + value.length) :
    b.appendOpt (some value) =
      { b with nulls := b.nulls ++ [false],
               completed := b.completed ++ [b.in_progress],
               in_progress := value,
               views := b.views ++ [makeView value (b.completed.length + 1) 0] } := by
  simp [ByteGroupValueViewBuilder.appendOpt, h12,
    ByteGroupValueViewBuilder.ensure_big_enough, hcap]

theorem viewInv_append (vs : List (Option (List Nat))) (v : Option (List Nat))
    (b : ByteGroupValueViewBuilder) (h : ViewInv vs b) :
    ViewInv (vs ++ [v]) (b.appendOpt v) := by
  have hvl := h.views_len
  cases v with
  | none =>
      refine ⟨by simp [ByteGroupValueViewBuilder.appendOpt, h.nulls_eq], ?_, ?_⟩
      · simp [ByteGroupValueViewBuilder.appendOpt, hvl]
      · intro l hl
        simp only [ByteGroupValueViewBuilder.appendOpt]
        rcases Nat.lt_or_ge l vs.length with hlt | hge
        · rw [getD_append_lt _ _ _ _ (show l < b.views.length by omega),
            getD_append_lt _ _ _ _ hlt]
          exact h.ok l hlt
        · have hleq : l = vs.length := by simp at hl; omega
          subst hleq
          rw [getD_append_len, ← hvl, getD_append_len]
          exact rfl
  | some value =>
      by_cases h12 : value.length ≤ 12
      · refine ⟨by simp [ByteGroupValueViewBuilder.appendOpt, h12, h.nulls_eq], ?_, ?_⟩
        · simp [ByteGroupValueViewBuilder.appendOpt, h12, hvl]
        · intro l hl
          simp only [ByteGroupValueViewBuilder.appendOpt, h12, if_pos]
          rcases Nat.lt_or_ge l vs.length with hlt | hge
          · rw [getD_append_lt _ _ _ _ (show l < b.views.length by omega),
              getD_append_lt _ _ _ _ hlt]
            exact h.ok l hlt
          · have hleq : l = vs.length := by simp at hl; omega
            subst hleq
            rw [getD_append_len, ← hvl, getD_append_len]
            simp [viewOk, h12, makeView]
      · by_cases hcap : b.max_block_size < b.in_progress.length + value.length
        · rw [appendOpt_long_flush b value h12 hcap]
          refine ⟨by simp [h.nulls_eq], by simp [hvl], ?_⟩
          intro l hl
          rcases Nat.lt_or_ge l vs.length with hlt | hge
          · rw [getD_append_lt _ _ _ _ (by omega : l < b.views.length)]
            rw [show (vs ++ [some value]).getD l none = vs.getD l none from
              getD_append_lt _ _ _ _ (by omega)]
            have h1 := viewOk_flush b.completed b.in_progress
              (b.views.getD l ⟨0, .inl []⟩) (vs.getD l none) (h.ok l hlt)
            have h2 := viewOk_extend (b.completed ++ [b.in_progress]) [] value
              (b.views.getD l ⟨0, .inl []⟩) (vs.getD l none) h1
            simpa using h2
          · have hleq : l = vs.length := by simp at hl; omega
            subst hleq
            rw [getD_append_len, ← hvl, getD_append_len]
            simp only [viewOk, List.getD_cons_zero, if_neg h12, makeView]
            refine ⟨b.completed.length + 1, 0, rfl, Or.inr ⟨by simp, by simp, by simp⟩⟩
        · rw [appendOpt_long_noflush b value h12 hcap]
          refine ⟨by simp [h.nulls_eq], by simp [hvl], ?_⟩
          intro l hl
          rcases Nat.lt_or_ge l vs.length with hlt | hge
          · rw [getD_append_lt _ _ _ _ (by omega : l < b.views.length)]
            rw [show (vs ++ [some value]).getD l none = vs.getD l none from
              getD_append_lt _ _ _ _ (by omega)]
            exact viewOk_extend b.completed b.in_progress value
              (b.views.getD l ⟨0, .inl []⟩) (vs.getD l none) (h.ok l hlt)
          · have hleq : l = vs.length := by simp at hl; omega
            subst hleq
            rw [getD_append_len, ← hvl, getD_append_len]
            simp only [viewOk, List.getD_cons_zero, if_neg h12, makeView]
            refine ⟨b.completed.length, b.in_progress.length, rfl,
              Or.inr ⟨rfl, by simp, ?_⟩⟩
            rw [List.drop_left]
            simp

theorem viewFromValues_inv (mbs : Nat) (vs : List (Option (List Nat))) :
    ViewInv vs (viewFromValues mbs vs) := by
  suffices h : ∀ (rest pre : List (Option (List Nat))) (b : ByteGroupValueViewBuilder),
      ViewInv pre b →
      ViewInv (pre ++ rest) (rest.foldl ByteGroupValueViewBuilder.appendOpt b) by
    have := h vs [] (ByteGroupValueViewBuilder.new mbs)
      ⟨rfl, rfl, by intro l hl; simp at hl⟩
    simpa [viewFromValues] using this
  intro rest
  induction rest with
  | nil => intro pre b hb; simpa using hb
  | cons v vr ih =>
      intro pre b hb
      rw [List.foldl_cons]
      have := ih (pre ++ [v]) (b.appendOpt v) (viewInv_append pre v b hb)
      simpa [List.append_assoc] using this

theorem value_of_resolvesTo (b : ByteGroupValueViewBuilder) (bi off len : Nat)
    (bytes : List Nat) (h : resolvesTo b.completed b.in_progress bi off len bytes) :
    b.value bi off len = bytes := by
  rcases h with ⟨h1, h2, h3⟩ | ⟨h1, h2, h3⟩
  · rw [ByteGroupValueViewBuilder.value, if_pos h1]; exact h3
  · rw [ByteGroupValueViewBuilder.value, if_neg (by omega)]; exact h3

/-- The logical (nullable) value of an incoming view-column row. -/
def colLogicalV (col : ViewCol) (r : Nat) : Option (List Nat) :=
  if col.nulls.getD r false then none else some (col.values.getD r [])

theorem equal_to_inner_null (b : ByteGroupValueViewBuilder) (col : ViewCol)
    (l r : Nat) (result : Bool)
    (h : nulls_equal_to (b.nulls.getD l false) (col.nulls.getD r false) = some result) :
    b.equal_to_inner col l r = result := by
  rw [ByteGroupValueViewBuilder.equal_to_inner, h]

theorem equal_to_inner_notnull (b : ByteGroupValueViewBuilder) (col : ViewCol)
    (l r : Nat)
    (h : nulls_equal_to (b.nulls.getD l false) (col.nulls.getD r false) = none) :
    b.equal_to_inner col l r =
      (if (b.views.getD l ⟨0, .inl []⟩).len ≠ (makeView (col.values.getD r []) 0 0).len
        then false
        else if (b.views.getD l ⟨0, .inl []⟩).len ≤ 12 then
          decide ((b.views.getD l ⟨0, .inl []⟩).inlineVal
            = (makeView (col.values.getD r []) 0 0).inlineVal)
        else if (b.views.getD l ⟨0, .inl []⟩).pre4
            ≠ (makeView (col.values.getD r []) 0 0).pre4 then false
        else decide (b.value (b.views.getD l ⟨0, .inl []⟩).buffer_index
          (b.views.getD l ⟨0, .inl []⟩).offset (b.views.getD l ⟨0, .inl []⟩).len
            = col.values.getD r [])) := by
  rw [ByteGroupValueViewBuilder.equal_to_inner, h]

theorem ne_of_length_ne {xs ys : List Nat} (h : xs.length ≠ ys.length) : xs ≠ ys :=
  fun hc => h (by rw [hc])

theorem ne_of_take4_ne {xs ys : List Nat} (h : xs.take 4 ≠ ys.take 4) : xs ≠ ys :=
  fun hc => h (by rw [hc])


theorem view_equal_to_spec (mbs : Nat) (vs : List (Option (List Nat)))
    (col : ViewCol) (l r : Nat) (hl : l < vs.length) :
    (viewFromValues mbs vs).equal_to_inner col l r
      = specEqOpt (vs.getD l none) (colLogicalV col r) := by
  have hinv := viewFromValues_inv mbs vs
  have hnl : (viewFromValues mbs vs).nulls.getD l false = (vs.getD l none).isNone := by
    rw [hinv.nulls_eq, List.getD_eq_getElem?_getD, List.getD_eq_getElem?_getD,
      List.getElem?_map, List.getElem?_eq_getElem hl]
    rfl
  have hok := hinv.ok l hl
  cases hv : vs.getD l none with
  | none =>
      rw [hv] at hnl
      cases hcn : col.nulls[r]?.getD false with
      | true =>
          rw [equal_to_inner_null _ _ _ _ true
            (by rw [hnl, List.getD_eq_getElem?_getD, hcn]; rfl)]
          simp [colLogicalV, List.getD_eq_getElem?_getD, hcn, specEqOpt]
      | false =>
          rw [equal_to_inner_null _ _ _ _ false
            (by rw [hnl, List.getD_eq_getElem?_getD, hcn]; rfl)]
          simp [colLogicalV, List.getD_eq_getElem?_getD, hcn, specEqOpt]
  | some bytes =>
      rw [hv] at hnl hok
      cases hcn : col.nulls[r]?.getD false with
      | true =>
          rw [equal_to_inner_null _ _ _ _ false
            (by rw [hnl, List.getD_eq_getElem?_getD, hcn]; rfl)]
          simp [colLogicalV, List.getD_eq_getElem?_getD, hcn, specEqOpt]
      | false =>
          rw [equal_to_inner_notnull _ _ _ _
            (by rw [hnl, List.getD_eq_getElem?_getD, hcn]; rfl)]
          have hrhs : colLogicalV col r = some (col.values.getD r []) := by
            simp [colLogicalV, List.getD_eq_getElem?_getD, hcn]
          rw [hrhs]
          simp only [viewOk] at hok
          set w := col.values.getD r [] with hw
          have hspec : specEqOpt (some bytes) (some w) = decide (bytes = w) := rfl
          have hmklen : (makeView w 0 0).len = w.length := by
            rw [makeView]
            by_cases h' : w.length ≤ 12 <;> simp [h']
          by_cases h12 : bytes.length ≤ 12
          · rw [if_pos h12] at hok
            rw [hok]
            show (if (VView.mk bytes.length (.inl bytes)).len ≠ (makeView w 0 0).len
              then false
              else if (VView.mk bytes.length (.inl bytes)).len ≤ 12 then
                decide ((VView.mk bytes.length (.inl bytes)).inlineVal
                  = (makeView w 0 0).inlineVal)
              else if (VView.mk bytes.length (.inl bytes)).pre4
                  ≠ (makeView w 0 0).pre4 then false
              else decide ((viewFromValues mbs vs).value
                (VView.mk bytes.length (.inl bytes)).buffer_index
                (VView.mk bytes.length (.inl bytes)).offset
                (VView.mk bytes.length (.inl bytes)).len = w))
              = specEqOpt (some bytes) (some w)
            rw [hspec]
            show (if bytes.length ≠ (makeView w 0 0).len then false
              else if bytes.length ≤ 12 then
                decide ((VView.mk bytes.length (.inl bytes)).inlineVal
                  = (makeView w 0 0).inlineVal)
              else _) = decide (bytes = w)
            rw [hmklen]
            by_cases hlen : bytes.length = w.length
            · rw [if_neg (fun hc => hc hlen), if_pos h12]
              rw [makeView, if_pos (by omega : w.length ≤ 12)]
              show decide (bytes = w) = decide (bytes = w)
              rfl
            · rw [if_pos hlen]
              have hne := ne_of_length_ne hlen
              simp [hne]
          · rw [if_neg h12] at hok
            obtain ⟨bi, off, hwv, hres⟩ := hok
            rw [hwv, hspec]
            show (if (VView.mk bytes.length (.ind (bytes.take 4) bi off)).len
                ≠ (makeView w 0 0).len then false
              else if (VView.mk bytes.length (.ind (bytes.take 4) bi off)).len ≤ 12 then
                decide ((VView.mk bytes.length (.ind (bytes.take 4) bi off)).inlineVal
                  = (makeView w 0 0).inlineVal)
              else if (VView.mk bytes.length (.ind (bytes.take 4) bi off)).pre4
                  ≠ (makeView w 0 0).pre4 then false
              else decide ((viewFromValues mbs vs).value
                (VView.mk bytes.length (.ind (bytes.take 4) bi off)).buffer_index
                (VView.mk bytes.length (.ind (bytes.take 4) bi off)).offset
                (VView.mk bytes.length (.ind (bytes.take 4) bi off)).len = w))
              = decide (bytes = w)
            show (if bytes.length ≠ (makeView w 0 0).len then false
              else if bytes.length ≤ 12 then _
              else if (VView.mk bytes.length (.ind (bytes.take 4) bi off)).pre4
                  ≠ (makeView w 0 0).pre4 then false
              else decide ((viewFromValues mbs vs).value bi off bytes.length = w))
              = decide (bytes = w)
            rw [hmklen]
            by_cases hlen : bytes.length = w.length
            · have hw12 : ¬ w.length ≤ 12 := by omega
              rw [if_neg (fun hc => hc hlen), if_neg h12]
              rw [makeView, if_neg hw12]
              show (if (bytes.take 4 : List Nat) ≠ w.take 4 then false
                else decide ((viewFromValues mbs vs).value bi off bytes.length = w))
                = decide (bytes = w)
              by_cases hpre : bytes.take 4 = w.take 4
              · rw [if_neg (fun hc => hc hpre)]
                rw [value_of_resolvesTo _ _ _ _ _ hres]
              · rw [if_pos hpre]
                have hne := ne_of_take4_ne hpre
                simp [hne]
            · rw [if_pos hlen]
              have hne := ne_of_length_ne hlen
              simp [hne]

/-- A non-nullable primitive builder reachable by appending non-null
rows (the `NULLABLE = false` path never touches the null buffer). -/
def primFromValuesNN (dflt : V) (vs : List V) : PrimitiveGroupValueBuilder V :=
  vs.foldl (fun b v => b.append_val false dflt ⟨[v], [false]⟩ 0) ⟨[], []⟩

theorem primFromValuesNN_state (dflt : V) (vs : List V) :
    (primFromValuesNN dflt vs).group_values = vs ∧ (primFromValuesNN dflt vs).nulls = [] := by
  suffices h : ∀ (vs : List V) (b : PrimitiveGroupValueBuilder V),
      (vs.foldl (fun b v => b.append_val false dflt ⟨[v], [false]⟩ 0) b).group_values
        = b.group_values ++ vs ∧
      (vs.foldl (fun b v => b.append_val false dflt ⟨[v], [false]⟩ 0) b).nulls = b.nulls by
    have := h vs ⟨[], []⟩
    simpa [primFromValuesNN] using this
  intro vs
  induction vs with
  | nil => intro b; simp
  | cons v rest ih =>
      intro b
      rw [List.foldl_cons]
      have hstep : PrimitiveGroupValueBuilder.append_val false dflt b ⟨[v], [false]⟩ 0
          = ⟨b.group_values ++ [v], b.nulls⟩ := by
        simp [PrimitiveGroupValueBuilder.append_val]
      rw [hstep]
      obtain ⟨h1, h2⟩ := ih ⟨b.group_values ++ [v], b.nulls⟩
      rw [h1, h2]
      simp

theorem prim_nullable_equal_to_spec (dflt : V) (vs : List (Option V)) (col : PrimCol V)
    (l r : Nat) (rv : V) (hl : l < vs.length) (hr : col.values[r]? = some rv) :
    (primFromValues dflt vs).equal_to true col l r
      = specEqOpt (vs.getD l none)
          (if col.nulls.getD r false then none else some rv) := by
  obtain ⟨hgv, hnulls⟩ := primFromValues_state dflt vs
  have hnl : (primFromValues dflt vs).nulls.getD l false = (vs.getD l none).isNone := by
    rw [hnulls, List.getD_eq_getElem?_getD, List.getD_eq_getElem?_getD,
      List.getElem?_map, List.getElem?_eq_getElem hl]
    rfl
  have hgl : (primFromValues dflt vs).group_values[l]?
      = some ((vs.getD l none).getD dflt) := by
    rw [hgv, List.getElem?_map, List.getElem?_eq_getElem hl,
      List.getD_eq_getElem?_getD, List.getElem?_eq_getElem hl]
    rfl
  rw [PrimitiveGroupValueBuilder.equal_to]
  simp only [if_pos]
  rw [hnl]
  cases hv : vs.getD l none with
  | none =>
      cases hcn : col.nulls.getD r false with
      | true => simp [nulls_equal_to, hcn, specEqOpt]
      | false => simp [nulls_equal_to, hcn, specEqOpt]
  | some x =>
      cases hcn : col.nulls.getD r false with
      | true => simp [nulls_equal_to, hcn, specEqOpt]
      | false =>
          rw [hv] at hgl
          simp [nulls_equal_to, hcn, specEqOpt, hgl, hr]

/-- C6 counterexample: the non-nullable primitive builder skips all
null checks, so a stored value 5 compares equal to a NULL incoming row
whose underlying buffer slot happens to hold 5, although the
specification says a null is never equal to a non-null value. -/
theorem group_column_equal_to_cex :
    (primFromValuesNN (0 : Nat) [5]).equal_to false ⟨[5], [true]⟩ 0 0 = true ∧
    specEqOpt (some (5 : Nat)) (none : Option Nat) = false := by
  refine ⟨by decide, by decide⟩

/-- C6 (amended): `equal_to` agrees with the specification comparison
(both null → equal; null vs value → not equal; otherwise value
equality) for the nullable primitive builder, the short-offset byte
builder and the view-encoded byte builder, on every reachable builder
and valid row index; for the non-nullable primitive builder the
agreement holds only when the incoming row is non-null (its null check
is skipped by design, so incoming nulls compare by underlying buffer
value). -/
theorem group_column_equal_to_amended :
    (∀ (dflt : V) (vs : List (Option V)) (col : PrimCol V) (l r : Nat) (rv : V),
      l < vs.length → col.values[r]? = some rv →
      (primFromValues dflt vs).equal_to true col l r
        = specEqOpt (vs.getD l none)
            (if col.nulls.getD r false then none else some rv)) ∧
    (∀ (dflt : V) (vs : List V) (col : PrimCol V) (l r : Nat) (lv rv : V),
      vs[l]? = some lv → col.values[r]? = some rv →
      col.nulls.getD r false = false →
      (primFromValuesNN dflt vs).equal_to false col l r
        = specEqOpt (some lv) (some rv)) ∧
    (∀ (vs : List (Option (List Nat))) (col : ByteCol) (l r : Nat),
      l < vs.length →
      (byteFromValues vs).equal_to_inner col l r
        = specEqOpt (vs.getD l none) (colLogicalB col r)) ∧
    (∀ (mbs : Nat) (vs : List (Option (List Nat))) (col : ViewCol) (l r : Nat),
      l < vs.length →
      (viewFromValues mbs vs).equal_to_inner col l r
        = specEqOpt (vs.getD l none) (colLogicalV col r)) := by
  refine ⟨?_, ?_, ?_, ?_⟩
  · intro dflt vs col l r rv hl hr
    exact prim_nullable_equal_to_spec dflt vs col l r rv hl hr
  · intro dflt vs col l r lv rv hlv hrv hcn
    obtain ⟨hgv, _⟩ := primFromValuesNN_state dflt vs
    rw [PrimitiveGroupValueBuilder.equal_to]
    simp only [if_neg Bool.false_ne_true]
    rw [hgv, hlv, hrv]
    simp [specEqOpt]
  · intro vs col l r hl
    exact byte_equal_to_spec vs col l r hl
  · intro mbs vs col l r hl
    exact view_equal_to_spec mbs vs col l r hl

theorem group_column_equal_to_amended_witness :
    ((primFromValues (0 : Nat) [some 7, none]).equal_to true ⟨[7, 9], [false, false]⟩ 0 0
      = specEqOpt (some (7 : Nat))
          (if ([false, false] : List Bool).getD 0 false then none else some 7)) ∧
    ((byteFromValues [some [1, 2], none]).equal_to_inner ⟨[[1, 2]], [false]⟩ 0 0
      = specEqOpt (some [1, 2]) (colLogicalB ⟨[[1, 2]], [false]⟩ 0)) ∧
    ((viewFromValues 60 [some (List.range 13)]).equal_to_inner
        ⟨[List.range 13], [false]⟩ 0 0
      = specEqOpt (some (List.range 13)) (colLogicalV ⟨[List.range 13], [false]⟩ 0)) :=
  ⟨group_column_equal_to_amended.1 0 [some 7, none] ⟨[7, 9], [false, false]⟩ 0 0 7
      (by decide) (by decide),
   (group_column_equal_to_amended (V := Nat)).2.2.1 [some [1, 2], none] ⟨[[1, 2]], [false]⟩ 0 0
      (by decide),
   (group_column_equal_to_amended (V := Nat)).2.2.2 60 [some (List.range 13)]
      ⟨[List.range 13], [false]⟩ 0 0 (by decide)⟩

/-- Shift a non-inlined view's buffer index down by `k`
(`byte_view.buffer_index -= last_related_buffer_index`). -/
def VData.shift (k : Nat) : VData → VData
  | .inl bytes => .inl bytes
  | .ind p bi off => .ind p (bi - k) off

/-- `ByteGroupValueViewBuilder::take_n` (group_column.rs:645-745),
returning the emitted array as `(views, buffers, nulls)` plus the
updated builder.  Faithful to the source, including the two suspect
steps: `last_buffer` is selected by checking
`last_related_buffer_index < self.completed.len()` AFTER the first
`last_related_buffer_index` buffers were drained, and the
`in_progress` branch copies only `in_progress[0..view.offset]`,
excluding the view's own value bytes. -/
def ByteGroupValueViewBuilder.take_n (b : ByteGroupValueViewBuilder) (n : Nat) :
    (List VView × List (List Nat) × List Bool) × ByteGroupValueViewBuilder :=
  let taken_nulls := b.nulls.take n
  let rem_nulls := b.nulls.drop n
  let first_n_views := b.views.take n
  let rem_views := b.views.drop n
  match first_n_views.reverse.find? (fun w => decide (12 < w.len)) with
  | some view =>
      let last_related_buffer_index := view.buffer_index
      let taken0 :=
        if b.completed = [] then [] else b.completed.take last_related_buffer_index
      let completed1 :=
        if b.completed = [] then b.completed
        else b.completed.drop last_related_buffer_index
      let last_buffer :=
        if last_related_buffer_index < completed1.length then
          completed1.getD last_related_buffer_index []
        else b.in_progress.take view.offset
      let taken_buffers := taken0 ++ [last_buffer]
      let shifted := rem_views.map (fun w =>
        if 12 < w.len then ⟨w.len, w.data.shift last_related_buffer_index⟩ else w)
      ((first_n_views, taken_buffers, taken_nulls),
        { b with views := shifted, nulls := rem_nulls, completed := completed1 })
  | none =>
      ((first_n_views, [], taken_nulls),
        { b with views := rem_views, nulls := rem_nulls })

/-- `GenericByteViewArray::new` validation plus value extraction for an
emitted view array: every view must describe its value consistently
(inline views carry their bytes; non-inlined views must point at an
in-bounds slice of an existing buffer whose first four bytes match the
stored prefix). `none` models the constructor panic on an invalid
view/buffer combination. -/
def resolveViews (views : List VView) (buffers : List (List Nat)) :
    Option (List (List Nat)) :=
  views.mapM (fun w =>
    if w.len ≤ 12 then
      match w.data with
      | .inl bytes => if bytes.length = w.len then some bytes else none
      | .ind _ _ _ => none
    else
      match w.data with
      | .inl _ => none
      | .ind p bi off =>
          match buffers[bi]? with
          | none => none
          | some buf =>
              if off + w.len ≤ buf.length then
                if ((buf.drop off).take w.len).take 4 = p then
                  some ((buf.drop off).take w.len)
                else none
              else none)

/-- C7: `ByteGroupValueViewBuilder::take_n` is broken for a value held
in the in-progress block: after appending one 13-byte value,
`take_n(1)` emits a view demanding bytes `[0, 13)` of its buffer but
copies only `in_progress[0..view.offset] = in_progress[0..0] = []`, so
the emitted array fails `GenericByteViewArray` validation (a panic in
the real code) instead of returning the first value — even though the
value resolves fine inside the builder beforehand. -/
theorem view_take_n_loses_value_bytes :
    (viewFromValues 60 [some (List.range 13)]).value 0 0 13 = List.range 13 ∧
    ((viewFromValues 60 [some (List.range 13)]).take_n 1).1.2.1 = [[]] ∧
    resolveViews ((viewFromValues 60 [some (List.range 13)]).take_n 1).1.1
        ((viewFromValues 60 [some (List.range 13)]).take_n 1).1.2.1 = none ∧
    resolveViews ((viewFromValues 60 [some (List.range 13)]).take_n 1).1.1
        ((viewFromValues 60 [some (List.range 13)]).take_n 1).1.2.1
      ≠ some [List.range 13] := by
  refine ⟨by decide, by decide, by decide, by decide⟩
